import Mathlib

/-!
Verification of the columnar database core (`src/`): value codec,
compression schemes, block metadata pruning, column store read/append,
storage manager insert/delete, aggregation, and the transaction manager.

Modelling conventions, shallow embedding of the Rust source:

* Byte buffers (`Vec<u8>`) are `List Nat`; every byte written by the code
  is `< 256` by construction (`% 256` appears wherever Rust truncates).
* `i32` values are carried as `Int` with the well-formedness bound
  `-2^31 ≤ i < 2^31`; serialization goes through the two's-complement
  bit pattern.
* `f32` values (`ordered_float::OrderedFloat<f32>`) are carried as their
  IEEE-754 bit pattern (`Nat < 2^32`).  Equality and ordering follow the
  `OrderedFloat` semantics: all NaN payloads form one equivalence class
  ordered above every other value, and `+0.0 == -0.0` (both have
  numeric key 0).  Float *arithmetic* (addition, division, casts), used
  only by Sum/Avg aggregation, is abstracted as an explicit dictionary
  of operations on bit patterns, so theorems about it hold for the real
  IEEE operations as one instance.
* Rust `String` payloads are their UTF-8 byte sequences (`List Nat`);
  `s.len()` is the byte length, comparison is lexicographic on bytes,
  exactly as in Rust.  UTF-8 validity checking (`String::from_utf8`) is
  not modelled; it cannot fail on buffers produced by the encoder.
* Fallible Rust functions return `Except DbError`.  Methods taking
  `&mut self` are state-passing; on an `Except.error` the intermediate
  state is discarded (theorems below are conditioned on success paths).
* `HashMap` fields are association lists with insert-replace
  semantics; where the source iterates a `HashMap` in arbitrary order
  (the dictionary writer), the model iterates in insertion order, a
  legal instance of that nondeterminism.
-/

namespace VDDB

/-! ## Little-endian byte helpers -/

/-- `w` little-endian bytes of `n` (i.e. of `n % 2^(8w)`), as written by
`byteorder::WriteBytesExt::write_uXX::<LittleEndian>`. -/
def leBytes : Nat → Nat → List Nat
  | 0, _ => []
  | w + 1, n => n % 256 :: leBytes w (n / 256)

/-- Read back a little-endian byte list as a natural number. -/
def fromLe : List Nat → Nat
  | [] => 0
  | b :: bs => b % 256 + 256 * fromLe bs

@[simp] theorem leBytes_length (w n : Nat) : (leBytes w n).length = w := by
  induction w generalizing n with
  | zero => rfl
  | succ w ih => simp [leBytes, ih]

theorem fromLe_leBytes (w n : Nat) : fromLe (leBytes w n) = n % 2 ^ (8 * w) := by
  induction w generalizing n with
  | zero => simp [leBytes, fromLe, Nat.mod_one]
  | succ w ih =>
      have hmm : n % 256 % 256 = n % 256 := Nat.mod_mod_of_dvd n (dvd_refl 256)
      have hpow : (2 : Nat) ^ (8 * (w + 1)) = 256 * 2 ^ (8 * w) := by
        have h8 : 8 * (w + 1) = 8 * w + 8 := by ring
        rw [h8, pow_add]
        ring
      calc fromLe (leBytes (w + 1) n)
          = n % 256 % 256 + 256 * fromLe (leBytes w (n / 256)) := rfl
        _ = n % 256 + 256 * (n / 256 % 2 ^ (8 * w)) := by rw [hmm, ih]
        _ = n % (256 * 2 ^ (8 * w)) := Nat.mod_mul.symm
        _ = n % 2 ^ (8 * (w + 1)) := by rw [hpow]

/-- Take `n` bytes from the front of a buffer; `none` models a failed
`read_exact` / `ReadBytesExt` call (unexpected end of input). -/
def readN (n : Nat) (bs : List Nat) : Option (List Nat × List Nat) :=
  if n ≤ bs.length then some (bs.take n, bs.drop n) else none

theorem readN_append (xs ys : List Nat) : readN xs.length (xs ++ ys) = some (xs, ys) := by
  simp [readN]

/-! ## Core types (`src/src/types.rs`) -/

/-- `DataType` from `types.rs`. -/
inductive DataType : Type
  | int32
  | float32
  | string
deriving DecidableEq, Repr

/-- `Value` from `types.rs`.  `int32` carries the mathematical integer
(well-formed when in `i32` range), `float32` carries the IEEE-754 bit
pattern of the `OrderedFloat<f32>`, `string` carries the UTF-8 bytes. -/
inductive Value : Type
  | int32 (i : Int)
  | float32 (bits : Nat)
  | string (bytes : List Nat)
deriving DecidableEq, Repr

/-- `DbError` from `types.rs`.  `IoError` payloads are reduced to a
message string; the `QueryError` variant is referenced by
`query/evaluator.rs` (it is absent from the `types.rs` in `src/` — a
stale module variant — so it is included here as the evaluator requires). -/
inductive DbError : Type
  | ioError (msg : String)
  | serializationError (msg : String)
  | typeMismatch
  | invalidData (msg : String)
  | queryError (msg : String)
deriving DecidableEq, Repr

/-- `CompressionType` from `types.rs`. -/
inductive CompressionType : Type
  | none
  | rle
  | dictionary
deriving DecidableEq, Repr

/-- `Value::data_type`. -/
def Value.dataType : Value → DataType
  | .int32 _ => .int32
  | .float32 _ => .float32
  | .string _ => .string

/-! ### f32 semantics on bit patterns

`OrderedFloat<f32>` equality and ordering, expressed on the 32-bit
pattern: every NaN payload is one equivalence class placed above all
other values; non-NaN patterns compare by numeric value (so the two
zero patterns `0x00000000` and `0x80000000` are equal). -/

/-- A 32-bit pattern is a NaN: exponent bits all ones, mantissa nonzero. -/
def f32IsNan (b : Nat) : Bool :=
  decide (b / 2 ^ 23 % 256 = 255) && decide (b % 2 ^ 23 ≠ 0)

/-- Order key of an `f32` bit pattern: NaN maps above every numeric
value; otherwise signed magnitude (IEEE numeric order on non-NaN
patterns, with both zeros at key 0). -/
def f32Key (b : Nat) : Int :=
  if f32IsNan b then (2 : Int) ^ 31
  else if b / 2 ^ 31 % 2 = 1 then -((b % 2 ^ 31 : Nat) : Int)
  else ((b % 2 ^ 31 : Nat) : Int)

/-- The bit pattern of `0.0f32` (the `Float32(OrderedFloat(0.0))`
literal used throughout the source). -/
def f32ZeroBits : Nat := 0

/-- Two's-complement 32-bit pattern of an `i32` (`i.to_le_bytes`
before byte-splitting). -/
def int32Bits (i : Int) : Nat := (i % (2 ^ 32 : Int)).toNat

/-- Read a 32-bit pattern back as an `i32` (`i32::from_le_bytes`
after byte-joining). -/
def bitsToInt32 (n : Nat) : Int :=
  if n < 2 ^ 31 then (n : Int) else (n : Int) - 2 ^ 32

/-! ### Rust equality and ordering on `Value` -/

/-- Rust `PartialEq`/`Eq` on `Value` (`#[derive(PartialEq, Eq)]` with
`OrderedFloat` float semantics): different variants are unequal; floats
compare by `f32Key` (all NaNs equal, `+0.0 == -0.0`). -/
def valueEq : Value → Value → Bool
  | .int32 a, .int32 b => a == b
  | .float32 a, .float32 b => f32Key a == f32Key b
  | .string a, .string b => a == b
  | _, _ => false

/-- Total comparison on `Int` (Rust `i32::cmp`). -/
def intCmp (a b : Int) : Ordering :=
  if a < b then .lt else if b < a then .gt else .eq

/-- Total comparison on `Nat` (Rust `u8::cmp`). -/
def natCmp (a b : Nat) : Ordering :=
  if a < b then .lt else if b < a then .gt else .eq

/-- Lexicographic byte comparison (Rust `String`/`str` `Ord`, which
compares UTF-8 bytes). -/
def bytesCmp : List Nat → List Nat → Ordering
  | [], [] => .eq
  | [], _ :: _ => .lt
  | _ :: _, [] => .gt
  | a :: as, b :: bs =>
      match natCmp a b with
      | .eq => bytesCmp as bs
      | o => o

/-- Rust `#[derive(Ord)]` on `Value` (variant order `Int32 < Float32 <
String`, payloads by `i32` order, `OrderedFloat` order, byte-lex order). -/
def valueCmp : Value → Value → Ordering
  | .int32 a, .int32 b => intCmp a b
  | .int32 _, _ => .lt
  | .float32 _, .int32 _ => .gt
  | .float32 a, .float32 b => intCmp (f32Key a) (f32Key b)
  | .float32 _, .string _ => .lt
  | .string a, .string b => bytesCmp a b
  | .string _, _ => .gt

/-- `a ≤ b` under the `Value` total order. -/
def valueLe (a b : Value) : Bool := valueCmp a b ≠ Ordering.gt

/-- `a < b` under the `Value` total order. -/
def valueLt (a b : Value) : Bool := valueCmp a b = Ordering.lt

/-! ### `Value::serialize` (`types.rs` lines 27–39) -/

/-- `Value::serialize`: Int32 → 4 LE bytes; Float32 → 4 bytes of the
IEEE pattern; String → **u32** length prefix + UTF-8 bytes. -/
def Value.serialize : Value → List Nat
  | .int32 i => leBytes 4 (int32Bits i)
  | .float32 b => leBytes 4 b
  | .string s => leBytes 4 s.length ++ s

/-- Machine-representability of a model `Value`: the `i32` payload fits
in 32 bits, the float pattern is 32 bits, and the string's byte length
fits a `usize` (`u64`).  Every Rust value satisfies this. -/
def Value.WF : Value → Prop
  | .int32 i => -(2 ^ 31) ≤ i ∧ i < 2 ^ 31
  | .float32 b => b < 2 ^ 32
  | .string s => s.length < 2 ^ 64

instance : DecidablePred Value.WF := by
  intro v
  cases v <;> simp only [Value.WF] <;> infer_instance

/-- All values of a sequence are well-formed and of data type `dt`
("sequence of matching type" in the spec). -/
def SeqWF (dt : DataType) (s : List Value) : Prop :=
  ∀ v ∈ s, Value.WF v ∧ v.dataType = dt

instance (dt : DataType) (s : List Value) : Decidable (SeqWF dt s) := by
  unfold SeqWF
  infer_instance

/-- Pointwise Rust `==` on value sequences (`Vec<Value>` equality). -/
def listValueEq : List Value → List Value → Bool
  | [], [] => true
  | a :: as, b :: bs => valueEq a b && listValueEq as bs
  | _, _ => false

/-! ## Compression codec (`src/src/storage/compression.rs`) -/

/-- The per-value byte encoding shared by the `None` and `Rle` branches
of `compress` (lines 11–18 and 74–80): Int32 → 4 LE bytes; Float32 → 4
LE bytes of the pattern; String → **u64** length prefix + bytes. -/
def encValue : Value → List Nat
  | .int32 i => leBytes 4 (int32Bits i)
  | .float32 b => leBytes 4 b
  | .string s => leBytes 8 s.length ++ s

/-- `write_rle_value` (lines 69–83): rejects runs longer than 255,
then writes the `u8` count followed by the encoded value. -/
def write_rle_value (value : Value) (count : Nat) : Except DbError (List Nat) :=
  if count > 255 then .error (.invalidData "RLE run length exceeds 255")
  else .ok (count % 256 :: encValue value)

/-- The RLE grouping loop of `compress` (lines 26–38): `current` is the
value of the open run, `count` its length so far. -/
def rleGo : Value → Nat → List Value → Except DbError (List Nat)
  | current, count, [] => write_rle_value current count
  | current, count, v :: rest =>
      if valueEq v current then rleGo current (count + 1) rest
      else do
        let b ← write_rle_value current count
        let r ← rleGo v 1 rest
        pure (b ++ r)

/-- First-match lookup in the dictionary association list (string → id);
models `HashMap<&String, u64>::entry` lookup (keys are distinct). -/
def dictLookup : List (List Nat × Nat) → List Nat → Option Nat
  | [], _ => Option.none
  | (t, i) :: rest, s => if t = s then some i else dictLookup rest s

/-- The dictionary-assignment loop of `compress` (lines 46–57): emits
one u64 id per value, extending the dictionary in first-appearance
order with ids counted from 0; non-string input fails. -/
def dictEncode : List Value → List (List Nat × Nat) → Nat →
    Except DbError (List Nat × List (List Nat × Nat))
  | [], dict, _ => .ok ([], dict)
  | .string s :: rest, dict, next =>
      match dictLookup dict s with
      | some id => (dictEncode rest dict next).map (fun p => (leBytes 8 id ++ p.1, p.2))
      | Option.none =>
          (dictEncode rest (dict ++ [(s, next)]) (next + 1)).map
            (fun p => (leBytes 8 next ++ p.1, p.2))
  | _ :: _, _, _ => .error (.invalidData "Dictionary compression only for strings")

/-- `compress` (lines 6–67).  The dictionary writer iterates the
`HashMap` in unspecified order; the model iterates in insertion order,
one legal instance of that nondeterminism. -/
def compress (values : List Value) (compression : CompressionType) :
    Except DbError (List Nat) :=
  match compression with
  | .none => .ok (values.flatMap encValue)
  | .rle =>
      match values with
      | [] => .ok []
      | v :: vs => rleGo v 1 vs
  | .dictionary =>
      match dictEncode values [] 0 with
      | .error e => .error e
      | .ok (ids, dict) =>
          .ok (leBytes 8 values.length ++ ids ++ leBytes 8 dict.length ++
               dict.flatMap (fun p => leBytes 8 p.2 ++ leBytes 8 p.1.length ++ p.1))

/-! ### Decompression -/

/-- One value read in the `None`/`Rle` framing: i32/f32 are 4 bytes,
strings are a u64 length then that many bytes (`decompress` lines
91–111 and 124–150). -/
def readValueNone (dt : DataType) (bs : List Nat) : Option (Value × List Nat) :=
  match dt with
  | .int32 =>
      match readN 4 bs with
      | some (c, r) => some (.int32 (bitsToInt32 (fromLe c)), r)
      | Option.none => Option.none
  | .float32 =>
      match readN 4 bs with
      | some (c, r) => some (.float32 (fromLe c), r)
      | Option.none => Option.none
  | .string =>
      match readN 8 bs with
      | some (lc, r) =>
          match readN (fromLe lc) r with
          | some (s, r2) => some (.string s, r2)
          | Option.none => Option.none
      | Option.none => Option.none

/-- The `while cursor.position() < data.len()` loop of the `None`
decoder.  `fuel` bounds the iteration count; since every successful
iteration consumes at least one byte, `fuel = data.length` (as passed
by `decompress`) can never run out — the fuel branch is unreachable. -/
def decompressNoneGo (dt : DataType) : Nat → List Nat → Except DbError (List Value)
  | _, [] => .ok []
  | 0, _ :: _ => .error (.serializationError "loop bound exhausted")
  | fuel + 1, b :: bs =>
      match readValueNone dt (b :: bs) with
      | Option.none => .error (.serializationError "unexpected end of input")
      | some (v, r) => (decompressNoneGo dt fuel r).map (fun l => v :: l)

/-- The RLE decoding loop (`decompress` lines 115–152): reads a `u8`
count (0 is malformed), then one value, and emits `count` copies. -/
def decompressRleGo (dt : DataType) : Nat → List Nat → Except DbError (List Value)
  | _, [] => .ok []
  | 0, _ :: _ => .error (.serializationError "loop bound exhausted")
  | fuel + 1, c :: bs =>
      if c % 256 = 0 then .error (.serializationError "Invalid RLE run length")
      else
        match readValueNone dt bs with
        | Option.none => .error (.serializationError "unexpected end of input")
        | some (v, r) =>
            (decompressRleGo dt fuel r).map (fun l => List.replicate (c % 256) v ++ l)

/-- Read one u64. -/
def readU64 (bs : List Nat) : Option (Nat × List Nat) :=
  match readN 8 bs with
  | some (c, r) => some (fromLe c, r)
  | Option.none => Option.none

/-- Read `n` u64 ids (`decompress` lines 161–166). -/
def readU64s : Nat → List Nat → Option (List Nat × List Nat)
  | 0, bs => some ([], bs)
  | n + 1, bs =>
      match readU64 bs with
      | some (x, r) =>
          match readU64s n r with
          | some (xs, r2) => some (x :: xs, r2)
          | Option.none => Option.none
      | Option.none => Option.none

/-- Read the dictionary records (`decompress` lines 170–181); entries
are prepended, so a first-match lookup sees the latest insertion, the
`HashMap::insert` replace semantics. -/
def readDictEntries : Nat → List Nat → List (Nat × List Nat) →
    Except DbError (List (Nat × List Nat))
  | 0, _, acc => .ok acc
  | n + 1, bs, acc =>
      match readU64 bs with
      | Option.none => .error (.serializationError "Failed to read dict ID")
      | some (id, r1) =>
          match readU64 r1 with
          | Option.none => .error (.serializationError "Failed to read string len")
          | some (len, r2) =>
              match readN len r2 with
              | Option.none => .error (.serializationError "Failed to read string data")
              | some (s, r3) => readDictEntries n r3 ((id, s) :: acc)

/-- First-match lookup id → string in the decoded dictionary. -/
def dictFind : List (Nat × List Nat) → Nat → Option (List Nat)
  | [], _ => Option.none
  | (i, s) :: rest, id => if i = id then some s else dictFind rest id

/-- Map every id through the dictionary (`decompress` lines 182–188). -/
def mapIds (d : List (Nat × List Nat)) : List Nat → Except DbError (List Value)
  | [] => .ok []
  | id :: rest =>
      match dictFind d id with
      | Option.none => .error (.serializationError "Invalid dictionary ID")
      | some s => (mapIds d rest).map (fun l => Value.string s :: l)

/-- `decompress` (lines 85–192). -/
def decompress (data : List Nat) (compression : CompressionType) (dt : DataType) :
    Except DbError (List Value) :=
  match compression with
  | .none => decompressNoneGo dt data.length data
  | .rle => decompressRleGo dt data.length data
  | .dictionary =>
      match readU64 data with
      | Option.none => .error (.serializationError "Failed to read value count")
      | some (valueCount, r1) =>
          if valueCount = 0 then .ok []
          else
            match readU64s valueCount r1 with
            | Option.none => .error (.serializationError "Failed to read ID")
            | some (ids, r2) =>
                match readU64 r2 with
                | Option.none => .error (.serializationError "Failed to read dict size")
                | some (dictSize, r3) =>
                    match readDictEntries dictSize r3 [] with
                    | .error e => .error e
                    | .ok dict => mapIds dict ids

/-! ## Association-list helpers

`HashMap<K, V>` fields of the source are association lists with
insert-replace semantics; `alistGet` is first-match lookup. -/

def alistGet {α : Type} (m : List (String × α)) (k : String) : Option α :=
  match m with
  | [] => Option.none
  | (k', v) :: rest => if k' = k then some v else alistGet rest k

def alistPut {α : Type} (m : List (String × α)) (k : String) (v : α) : List (String × α) :=
  match m with
  | [] => [(k, v)]
  | (k', v') :: rest => if k' = k then (k, v) :: rest else (k', v') :: alistPut rest k v

def alistRemove {α : Type} (m : List (String × α)) (k : String) : List (String × α) :=
  m.filter (fun p => ¬ p.1 = k)

/-! ## Conditions (`src/src/query/mod.rs`) -/

/-- `Condition` from `query/mod.rs`. -/
inductive Condition : Type
  | equal (col : String) (val : Value)
  | greaterThan (col : String) (val : Value)
  | lessThan (col : String) (val : Value)
  | lessThanOrEqual (col : String) (val : Value)
  | greaterThanOrEqual (col : String) (val : Value)
  | and (left right : Condition)
  | or (left right : Condition)
deriving DecidableEq, Repr

/-- `collect_condition_columns` (`query/mod.rs` lines 76–92).  The
source collects into a `HashSet`; the model keeps first-appearance
order, a legal instance of the set's unspecified iteration order. -/
def collect_condition_columns : Condition → List String
  | .equal c _ => [c]
  | .greaterThan c _ => [c]
  | .lessThan c _ => [c]
  | .lessThanOrEqual c _ => [c]
  | .greaterThanOrEqual c _ => [c]
  | .and l r =>
      let a := collect_condition_columns l
      a ++ (collect_condition_columns r).filter (fun c => ¬ a.contains c)
  | .or l r =>
      let a := collect_condition_columns l
      a ++ (collect_condition_columns r).filter (fun c => ¬ a.contains c)

/-! ## Block metadata (`src/src/schema/metadata.rs`) -/

/-- `BlockInfo` from `metadata.rs`. -/
structure BlockInfo : Type where
  offset : Nat
  rowCount : Nat
  min : Value
  max : Value
  compression : CompressionType
  serializedSize : Option Nat
deriving DecidableEq, Repr

/-- `BlockMetadata` from `metadata.rs`. -/
structure BlockMetadata : Type where
  columnName : String
  dataType : DataType
  blocks : List BlockInfo
  metadataPath : String
  indexEnabled : Bool
deriving DecidableEq, Repr

/-- `<data_dir>/metadata/<column_name>.json` — the metadata path formula
of `BlockMetadata::new_metadata` / `load`; it contains no table name. -/
def metadataPathOf (dataDir columnName : String) : String :=
  dataDir ++ "/metadata/" ++ columnName ++ ".json"

/-- `<data_dir>/columns/<column_name>.dat` — the data-file path formula
of `ColumnStore::new`; it contains no table name. -/
def columnFilePathOf (dataDir columnName : String) : String :=
  dataDir ++ "/columns/" ++ columnName ++ ".dat"

/-- `BlockMetadata::new_metadata` (lines 29–38). -/
def BlockMetadata.new_metadata (columnName : String) (dt : DataType) (dataDir : String) :
    BlockMetadata :=
  { columnName := columnName, dataType := dt, blocks := [],
    metadataPath := metadataPathOf dataDir columnName, indexEnabled := false }

/-! ## Filesystem state

The ambient filesystem, threaded through the storage operations: column
data files hold raw bytes; metadata files hold the persisted block list
(the JSON serialization is abstracted to the list itself). -/

structure FS : Type where
  dataFiles : List (String × List Nat)
  metaFiles : List (String × List BlockInfo)
deriving DecidableEq, Repr

/-- The empty data directory. -/
def FS.empty : FS := ⟨[], []⟩

/-- `BlockMetadata::save` (lines 71–80): persists the block list at the
metadata path. -/
def BlockMetadata.save (md : BlockMetadata) (fs : FS) : FS :=
  { fs with metaFiles := alistPut fs.metaFiles md.metadataPath md.blocks }

/-- `BlockMetadata::load` (lines 82–96): a missing file yields a fresh
empty metadata; otherwise the persisted block list is adopted.  (The
persisted `index_enabled` flag is not modelled; nothing in the verified
paths reads it.) -/
def BlockMetadata.load (columnName : String) (dt : DataType) (dataDir : String) (fs : FS) :
    BlockMetadata :=
  match alistGet fs.metaFiles (metadataPathOf dataDir columnName) with
  | Option.none => BlockMetadata.new_metadata columnName dt dataDir
  | some blocks =>
      { columnName := columnName, dataType := dt, blocks := blocks,
        metadataPath := metadataPathOf dataDir columnName, indexEnabled := false }

/-- `BlockMetadata::add_block` (lines 40–63): type-checks min/max, pushes
the `BlockInfo`, persists.  (`column.rs` passes a stale extra
`file_path` argument not present in this signature.) -/
def BlockMetadata.add_block (md : BlockMetadata) (min max : Value) (offset rowCount : Nat)
    (compression : CompressionType) (serializedSize : Nat) (fs : FS) :
    Except DbError (BlockMetadata × FS) :=
  if min.dataType ≠ md.dataType ∨ max.dataType ≠ md.dataType then .error .typeMismatch
  else
    let md' := { md with blocks := md.blocks ++
      [⟨offset, rowCount, min, max, compression, some serializedSize⟩] }
    .ok (md', md'.save fs)

/-- The local `matches_condition` of `BlockMetadata::get_blocks`
(`metadata.rs` lines 100–128): note every leaf matches on the
`(min, max, value)` triple, and a leaf naming another column — or an
`<=`/`>=` leaf — falls through to `true`. -/
def matches_condition (block : BlockInfo) (condition : Condition) (columnName : String) : Bool :=
  match condition with
  | .greaterThan col value =>
      if col = columnName then
        match block.min, block.max, value with
        | .int32 _, .int32 mx, .int32 v => decide (mx > v)
        | .float32 _, .float32 mx, .float32 v => decide (f32Key mx > f32Key v)
        | .string _, .string mx, .string v => bytesCmp mx v == Ordering.gt
        | _, _, _ => false
      else true
  | .lessThan col value =>
      if col = columnName then
        match block.min, block.max, value with
        | .int32 mn, .int32 _, .int32 v => decide (mn < v)
        | .float32 mn, .float32 _, .float32 v => decide (f32Key mn < f32Key v)
        | .string mn, .string _, .string v => bytesCmp mn v == Ordering.lt
        | _, _, _ => false
      else true
  | .equal col value =>
      if col = columnName then
        match block.min, block.max, value with
        | .int32 mn, .int32 mx, .int32 v => decide (mn ≤ v) && decide (v ≤ mx)
        | .float32 mn, .float32 mx, .float32 v =>
            decide (f32Key mn ≤ f32Key v) && decide (f32Key v ≤ f32Key mx)
        | .string mn, .string mx, .string v =>
            !(bytesCmp mn v == Ordering.gt) && !(bytesCmp v mx == Ordering.gt)
        | _, _, _ => false
      else true
  | .and l r => matches_condition block l columnName && matches_condition block r columnName
  | .or l r => matches_condition block l columnName || matches_condition block r columnName
  | _ => true

/-- `BlockMetadata::get_blocks` (lines 98–142). -/
def BlockMetadata.get_blocks (md : BlockMetadata) (condition : Option Condition) :
    List BlockInfo :=
  match condition with
  | some cond => md.blocks.filter (fun b => matches_condition b cond md.columnName)
  | Option.none => md.blocks

/-! ## Block-level predicate evaluator (`src/src/query/evaluator.rs`) -/

/-- `evaluate_condition_block` (`evaluator.rs` lines 5–41): the
`GreaterThan` arm inspects only `block.max`, `LessThan` only
`block.min`, `Equal` both; a failed column guard or an `<=`/`>=` leaf
falls through to the `_ => true` arm. -/
def evaluate_condition_block (condition : Condition) (columnName : String)
    (block : BlockInfo) : Bool :=
  match condition with
  | .greaterThan col val =>
      if col = columnName then
        match block.max, val with
        | .int32 mx, .int32 v => decide (mx > v)
        | .float32 mx, .float32 v => decide (f32Key mx > f32Key v)
        | .string mx, .string v => bytesCmp mx v == Ordering.gt
        | _, _ => false
      else true
  | .lessThan col val =>
      if col = columnName then
        match block.min, val with
        | .int32 mn, .int32 v => decide (mn < v)
        | .float32 mn, .float32 v => decide (f32Key mn < f32Key v)
        | .string mn, .string v => bytesCmp mn v == Ordering.lt
        | _, _ => false
      else true
  | .equal col val =>
      if col = columnName then
        match block.min, block.max, val with
        | .int32 mn, .int32 mx, .int32 v => decide (mn ≤ v) && decide (v ≤ mx)
        | .float32 mn, .float32 mx, .float32 v =>
            decide (f32Key mn ≤ f32Key v) && decide (f32Key v ≤ f32Key mx)
        | .string mn, .string mx, .string v =>
            !(bytesCmp mn v == Ordering.gt) && !(bytesCmp v mx == Ordering.gt)
        | _, _, _ => false
      else true
  | .and l r =>
      evaluate_condition_block l columnName block && evaluate_condition_block r columnName block
  | .or l r =>
      evaluate_condition_block l columnName block || evaluate_condition_block r columnName block
  | _ => true

/-- `evaluate_condition_row` (`evaluator.rs` lines 43–82).  The source
match omits the `<=`/`>=` variants (a stale-variant non-exhaustiveness);
those arms are modelled as a `QueryError`, and nothing verified below
reaches them.  `&&`/`||` short-circuit as in Rust. -/
def evaluate_condition_row (condition : Condition)
    (columnValues : List (String × List Value)) (rowIndex : Nat) :
    Except DbError Bool :=
  match condition with
  | .equal col val =>
      match alistGet columnValues col with
      | Option.none => .error (.queryError "Column not found")
      | some values =>
          .ok (match values.get? rowIndex with
            | Option.none => false
            | some v => valueEq v val)
  | .greaterThan col val =>
      match alistGet columnValues col with
      | Option.none => .error (.queryError "Column not found")
      | some values =>
          .ok (match values.get? rowIndex with
            | Option.none => false
            | some v =>
                match v, val with
                | .int32 a, .int32 b => decide (a > b)
                | .float32 a, .float32 b => decide (f32Key a > f32Key b)
                | .string a, .string b => bytesCmp a b == Ordering.gt
                | _, _ => false)
  | .lessThan col val =>
      match alistGet columnValues col with
      | Option.none => .error (.queryError "Column not found")
      | some values =>
          .ok (match values.get? rowIndex with
            | Option.none => false
            | some v =>
                match v, val with
                | .int32 a, .int32 b => decide (a < b)
                | .float32 a, .float32 b => decide (f32Key a < f32Key b)
                | .string a, .string b => bytesCmp a b == Ordering.lt
                | _, _ => false)
  | .and l r => do
      let lv ← evaluate_condition_row l columnValues rowIndex
      if lv then evaluate_condition_row r columnValues rowIndex else pure false
  | .or l r => do
      let lv ← evaluate_condition_row l columnValues rowIndex
      if lv then pure true else evaluate_condition_row r columnValues rowIndex
  | _ => .error (.queryError "operator not handled by evaluate_condition_row")

/-! ## Blocks and the column store (`src/src/storage/block.rs`, `column.rs`) -/

/-- `Block` from `block.rs`. -/
structure Block : Type where
  values : List Value
  compression : CompressionType
deriving DecidableEq, Repr

/-- `Block::new` (lines 13–18). -/
def Block.new (values : List Value) (compression : CompressionType) : Except DbError Block :=
  if values.isEmpty then .error (.invalidData "Block cannot be empty")
  else .ok ⟨values, compression⟩

/-- `Value::deserialize` (`types.rs` lines 41–78): i32/f32 from 4
little-endian bytes, strings from a u32 length prefix plus that many
bytes (strings are byte lists here, so the source's UTF-8 validation is
identically satisfied). -/
def Value.deserialize (dt : DataType) (bytes : List Nat) : Except DbError Value :=
  match dt with
  | .int32 =>
      if 4 ≤ bytes.length then .ok (.int32 (bitsToInt32 (fromLe (bytes.take 4))))
      else .error (.serializationError "Insufficient bytes for Int32")
  | .float32 =>
      if 4 ≤ bytes.length then .ok (.float32 (fromLe (bytes.take 4)))
      else .error (.serializationError "Insufficient bytes for Float32")
  | .string =>
      if 4 ≤ bytes.length then
        if 4 + fromLe (bytes.take 4) ≤ bytes.length then
          .ok (.string ((bytes.drop 4).take (fromLe (bytes.take 4))))
        else .error (.serializationError "Insufficient bytes for String")
      else .error (.serializationError "Insufficient bytes for String length")

/-- The per-value cursor advancement of `Block::deserialize` (`block.rs`
lines 99–107, repeated in each branch): 4 bytes for numerics, u32
length + 4 for strings (a short length read is the source's
`read_u32` IO error). -/
def valueSize (dt : DataType) (bytes : List Nat) : Except DbError Nat :=
  match dt with
  | .int32 => .ok 4
  | .float32 => .ok 4
  | .string =>
      if 4 ≤ bytes.length then .ok (fromLe (bytes.take 4) + 4)
      else .error (.ioError "failed to fill whole buffer")

/-- The `None` value loop of `Block::deserialize` (`block.rs` lines
93–110): read `len` values back to back in `Value::serialize` framing. -/
def readBlockValuesNone (dt : DataType) : Nat → List Nat → Except DbError (List Value)
  | 0, _ => .ok []
  | n + 1, bs => do
      let v ← Value.deserialize dt bs
      let sz ← valueSize dt bs
      let vs ← readBlockValuesNone dt n (bs.drop sz)
      pure (v :: vs)

/-- The RLE pair loop of `Block::deserialize` (`block.rs` lines
114–134): read `len` records of one value followed by a u32 count. -/
def readBlockRunsRle (dt : DataType) : Nat → List Nat → Except DbError (List (Value × Nat))
  | 0, _ => .ok []
  | n + 1, bs => do
      let v ← Value.deserialize dt bs
      let sz ← valueSize dt bs
      if 4 ≤ (bs.drop sz).length then do
        let rest ← readBlockRunsRle dt n ((bs.drop sz).drop 4)
        pure ((v, fromLe ((bs.drop sz).take 4)) :: rest)
      else .error (.ioError "failed to fill whole buffer")

/-- First-match lookup in the u32-keyed block dictionary
(`HashMap<u32, Value>::get`). -/
def dictGetId : List (Nat × Value) → Nat → Option Value
  | [], _ => Option.none
  | (k, v) :: rest, i => if k = i then some v else dictGetId rest i

/-- Insert-replace for the u32-keyed block dictionary
(`HashMap<u32, Value>::insert`). -/
def dictPutId : List (Nat × Value) → Nat → Value → List (Nat × Value)
  | [], i, v => [(i, v)]
  | (k, v') :: rest, i, v =>
      if k = i then (i, v) :: rest else (k, v') :: dictPutId rest i v

/-- The dictionary-record loop of `Block::deserialize` (`block.rs` lines
139–159): read `dict_len` records of a u32 id followed by one value,
returning the entries in read order and the remaining input. -/
def readBlockDictEntries (dt : DataType) :
    Nat → List Nat → Except DbError (List (Nat × Value) × List Nat)
  | 0, bs => .ok ([], bs)
  | n + 1, bs =>
      if 4 ≤ bs.length then do
        let v ← Value.deserialize dt (bs.drop 4)
        let sz ← valueSize dt (bs.drop 4)
        let (rest, bs2) ← readBlockDictEntries dt n ((bs.drop 4).drop sz)
        pure ((fromLe (bs.take 4), v) :: rest, bs2)
      else .error (.ioError "failed to fill whole buffer")

/-- The index loop of `Block::deserialize` (`block.rs` lines 160–165):
`indices_len` consecutive u32s. -/
def readBlockIndices : Nat → List Nat → Except DbError (List Nat)
  | 0, _ => .ok []
  | n + 1, bs =>
      if 4 ≤ bs.length then do
        let rest ← readBlockIndices n (bs.drop 4)
        pure (fromLe (bs.take 4) :: rest)
      else .error (.ioError "failed to fill whole buffer")

/-- Modelled from the spec: `decompress_rle`, imported by `block.rs`
from the compression module but absent from `src/`, expands each
`(value, count)` run into `count` copies of the value (§4.2: each run
is a count and one value, decoding recovers the repetitions). -/
def decompress_rle (runs : List (Value × Nat)) : List Value :=
  runs.flatMap (fun p => List.replicate p.2 p.1)

/-- Modelled from the spec: `decompress_dictionary`, imported by
`block.rs` but absent from `src/`, maps each index through the
dictionary (§4.2).  An unknown id cannot occur on encoder output; the
`getD` default is the unreachable surrogate. -/
def decompress_dictionary (indices : List Nat) (dict : List (Nat × Value)) : List Value :=
  indices.map (fun i => (dictGetId dict i).getD (Value.int32 0))

/-- The compression tag byte (`block.rs` lines 45–49 and 84–88). -/
def compressionTag : CompressionType → Nat
  | .none => 0
  | .rle => 1
  | .dictionary => 2

/-- `Block::deserialize` (`block.rs` lines 81–170): check the leading
compression-tag byte against the expected scheme (`InvalidData` on
mismatch), read a u32 count, then decode per scheme — `None` reads the
values directly in `Value::serialize` framing (u32 string prefixes),
`Rle` reads `(value, u32 count)` pairs and expands them, `Dictionary`
reads the id→value records, a u32 index count and the u32 indices, and
maps the indices through the dictionary (`HashMap::insert` keeps the
last record of a duplicated id).  All three branches read the u32 count
immediately after the tag byte; short reads are IO errors as in the
source. -/
def Block.deserialize (bytes : List Nat) (dt : DataType) (compression : CompressionType) :
    Except DbError Block :=
  match bytes with
  | [] => .error (.ioError "failed to fill whole buffer")
  | b :: rest =>
      if b ≠ compressionTag compression then
        .error (.invalidData "Compression type mismatch")
      else if 4 ≤ rest.length then
        match compression with
        | .none => do
            let values ← readBlockValuesNone dt (fromLe (rest.take 4)) (rest.drop 4)
            pure ⟨values, compression⟩
        | .rle => do
            let runs ← readBlockRunsRle dt (fromLe (rest.take 4)) (rest.drop 4)
            pure ⟨decompress_rle runs, compression⟩
        | .dictionary => do
            let p ← readBlockDictEntries dt (fromLe (rest.take 4)) (rest.drop 4)
            if 4 ≤ p.2.length then do
              let indices ← readBlockIndices (fromLe (p.2.take 4)) (p.2.drop 4)
              pure ⟨decompress_dictionary indices
                (p.1.foldl (fun d q => dictPutId d q.1 q.2) []), compression⟩
            else .error (.ioError "failed to fill whole buffer")
      else .error (.ioError "failed to fill whole buffer")

/-- `Column` from `schema/mod.rs`. -/
structure Column : Type where
  name : String
  dataType : DataType
deriving DecidableEq, Repr

/-- `ColumnStore` from `column.rs`: the column definition, the in-memory
`BlockMetadata`, and the single data-file path. -/
structure ColumnStore : Type where
  column : Column
  metadata : BlockMetadata
  dataDir : String
  filePath : String
deriving DecidableEq, Repr

/-- `ColumnStore::new` (lines 20–33): path `<data_dir>/columns/<name>.dat`
(no table name), metadata loaded from the shared metadata path, data
file created empty when missing.  Filesystem errors are not modelled, so
the `Result` is a plain pair. -/
def ColumnStore.new (column : Column) (dataDir : String) (fs : FS) : ColumnStore × FS :=
  let filePath := columnFilePathOf dataDir column.name
  let metadata := BlockMetadata.load column.name column.dataType dataDir fs
  let fs' :=
    match alistGet fs.dataFiles filePath with
    | some _ => fs
    | Option.none => { fs with dataFiles := alistPut fs.dataFiles filePath [] }
  (⟨column, metadata, dataDir, filePath⟩, fs')

/-- `values.iter().min_by(|a, b| a.cmp(b)).cloned().unwrap_or(d)`:
Rust's `min_by` keeps the first minimum. -/
def iterMinBy (values : List Value) (d : Value) : Value :=
  match values with
  | [] => d
  | v :: vs => vs.foldl (fun x y => if valueCmp x y = Ordering.gt then y else x) v

/-- `values.iter().max_by(|a, b| a.cmp(b)).cloned().unwrap_or(d)`:
Rust's `max_by` keeps the last maximum. -/
def iterMaxBy (values : List Value) (d : Value) : Value :=
  match values with
  | [] => d
  | v :: vs => vs.foldl (fun x y => if valueCmp x y = Ordering.gt then x else y) v

/-- `ColumnStore::append` (lines 35–69): type-check, `Block::new`,
min/max (default `Int32(0)`), compress, write at end of file, record the
`BlockInfo` at the previous end-of-file offset, return that offset. -/
def ColumnStore.append (cs : ColumnStore) (values : List Value)
    (compression : CompressionType) (fs : FS) :
    Except DbError (Nat × ColumnStore × FS) := do
  if values.any (fun v => v.dataType ≠ cs.column.dataType) then throw DbError.typeMismatch
  let block ← Block.new values compression
  let mn := iterMinBy values (Value.int32 0)
  let mx := iterMaxBy values (Value.int32 0)
  let serialized ← compress block.values compression
  match alistGet fs.dataFiles cs.filePath with
  | Option.none => throw (.ioError "Failed to open column file")
  | some file => do
      let offset := file.length
      let fs1 := { fs with dataFiles := alistPut fs.dataFiles cs.filePath (file ++ serialized) }
      let (md', fs2) ← cs.metadata.add_block mn mx offset values.length compression
        serialized.length fs1
      pure (offset, { cs with metadata := md' }, fs2)

/-- `ColumnStore::read_block` (lines 86–100): open the column file, seek
to the block offset, read exactly `serialized_size` bytes (missing size
is `InvalidData`, short read is an IO error), then `Block::deserialize`. -/
def ColumnStore.read_block (cs : ColumnStore) (blockInfo : BlockInfo) (fs : FS) :
    Except DbError Block :=
  match alistGet fs.dataFiles cs.filePath with
  | Option.none => .error (.ioError "Failed to open column file")
  | some file =>
      match blockInfo.serializedSize with
      | Option.none => .error (.invalidData "Serialized size missing")
      | some size =>
          let data := (file.drop blockInfo.offset).take size
          if data.length < size then .error (.ioError "failed to fill whole buffer")
          else Block.deserialize data cs.column.dataType blockInfo.compression

/-- `ColumnStore::read` (lines 71–84): for every `BlockInfo` surviving
`get_blocks`, in order, append the block's values, silently skipping any
block whose `read_block` fails; always returns `Ok`.  (The
`BufferManager` argument of the source is dead: `read_block` ignores
it.) -/
def ColumnStore.read (cs : ColumnStore) (condition : Option Condition) (fs : FS) :
    Except DbError (List Value) :=
  .ok ((cs.metadata.get_blocks condition).foldl
    (fun values bi =>
      match cs.read_block bi fs with
      | .ok block => values ++ block.values
      | .error _ => values)
    [])

/-- `ColumnStore::clear` (lines 102–109): empty the metadata block list,
persist it, truncate the data file. -/
def ColumnStore.clear (cs : ColumnStore) (fs : FS) : ColumnStore × FS :=
  let md := { cs.metadata with blocks := [] }
  let fs1 := md.save fs
  let fs2 := { fs1 with dataFiles := alistPut fs1.dataFiles cs.filePath [] }
  ({ cs with metadata := md }, fs2)

/-! ## Secondary index (`src/src/storage/index.rs`) -/

/-- `Index` from `index.rs`: the `HashMap<Value, Vec<u64>>` cache keyed
by Rust `Value` equality (`valueEq`).  The persisted binary file is not
modelled: the verified paths only create fresh indexes, append, look up,
and clear. -/
structure Index : Type where
  dataType : DataType
  cache : List (Value × List Nat)
deriving DecidableEq, Repr

/-- First-match lookup under Rust `Value` equality (`HashMap::get`). -/
def cacheGet (cache : List (Value × List Nat)) (v : Value) : Option (List Nat) :=
  match cache with
  | [] => Option.none
  | (k, offs) :: rest => if valueEq k v then some offs else cacheGet rest v

/-- Replace-or-append under Rust `Value` equality (`HashMap` entry
update). -/
def cachePut (cache : List (Value × List Nat)) (v : Value) (offs : List Nat) :
    List (Value × List Nat) :=
  match cache with
  | [] => [(v, offs)]
  | (k, offs') :: rest =>
      if valueEq k v then (k, offs) :: rest else (k, offs') :: cachePut rest v offs

/-- A fresh `Index::new` on a not-yet-existing file (empty cache). -/
def Index.new (dataType : DataType) : Index := ⟨dataType, []⟩

/-- `Index::append` (lines 32–45): type-check each value, then push the
block offset into the value's bucket unless already present. -/
def Index.append (idx : Index) (values : List Value) (blockOffset : Nat) :
    Except DbError Index := do
  let cache ← values.foldlM (fun cache v => do
      if v.dataType ≠ idx.dataType then throw DbError.typeMismatch
      let offsets := (cacheGet cache v).getD []
      let offsets' := if blockOffset ∈ offsets then offsets else offsets ++ [blockOffset]
      pure (cachePut cache v offsets')) idx.cache
  pure { idx with cache := cache }

/-- `Index::lookup` (lines 47–54). -/
def Index.lookup (idx : Index) (value : Value) : Except DbError (List Nat) :=
  if value.dataType ≠ idx.dataType then .error .typeMismatch
  else .ok ((cacheGet idx.cache value).getD [])

/-- Modelled from the spec: `Index::clear` (§4.6 lists `clear()` among
the index operations; `delete_rows` and `DropIndex` call it, but the
method is absent from `src/storage/index.rs`).  It empties the map. -/
def Index.clear (idx : Index) : Index := { idx with cache := [] }

/-! ## Schema (`src/src/schema/mod.rs`) -/

/-- `Table` from `schema/mod.rs`. -/
structure Table : Type where
  name : String
  columns : List Column
  rowCount : Nat
deriving DecidableEq, Repr

/-- `table_def.get_column(name)` as used by the planner. -/
def Table.get_column (t : Table) (name : String) : Option Column :=
  t.columns.find? (fun c => c.name = name)

/-- `Schema` from `schema/mod.rs`.  `schema.json` persistence is not
modelled (`save` is the identity); the in-memory table map is the
authority within a session. -/
structure Schema : Type where
  tables : List (String × Table)
  dataDir : String
deriving DecidableEq, Repr

def Schema.get_table (s : Schema) (name : String) : Option Table :=
  alistGet s.tables name

/-- `Schema::add_table` (lines 43–56). -/
def Schema.add_table (s : Schema) (name : String) (columns : List Column) :
    Except DbError Schema :=
  if (alistGet s.tables name).isSome then .error (.invalidData "Table already exists")
  else .ok { s with tables := alistPut s.tables name ⟨name, columns, 0⟩ }

/-- `Schema::validate_row` (lines 95–110). -/
def Schema.validate_row (s : Schema) (table : String) (values : List Value) :
    Except DbError Unit :=
  match s.get_table table with
  | Option.none => .error (.invalidData "Table not found")
  | some t =>
      if values.length ≠ t.columns.length then .error (.invalidData "Mismatched column count")
      else if (values.zip t.columns).all (fun p => p.1.dataType == p.2.dataType) then .ok ()
      else .error (.invalidData "Type mismatch for column")

/-! ## Storage manager (`src/src/storage/mod.rs`) -/

/-- `usize::MAX`, the initial value of the `min_row_count` folds. -/
def usizeMax : Nat := 2 ^ 64 - 1

/-- `StorageManager` from `storage/mod.rs`, with the ambient filesystem
threaded as a field.  The `BufferManager` is omitted: `read` never
consults its cache (`read_block` discards the argument). -/
structure StorageManager : Type where
  dataDir : String
  columns : List (String × List (String × ColumnStore))
  indexes : List (String × List (String × Index))
  schema : Schema
  pendingRows : List (String × List (String × List Value))
  maxRowsPerSegment : Nat
  fs : FS
deriving Repr

/-- `StorageManager::new` (lines 59–93) on an empty data directory with
an empty schema: no per-table state yet, `max_rows_per_segment = 3`. -/
def StorageManager.new (dataDir : String) : StorageManager :=
  { dataDir := dataDir, columns := [], indexes := [],
    schema := ⟨[], dataDir⟩, pendingRows := [], maxRowsPerSegment := 3, fs := FS.empty }

/-- `StorageManager::create_table` (lines 103–123): build the column
stores, create an index for columns named `"ID"` or `"Name"`, register
the maps, then `schema.add_table`. -/
def StorageManager.create_table (sm : StorageManager) (table : Table) :
    Except DbError StorageManager := do
  let (tableCols, tableIndexes, fs') := table.columns.foldl
    (fun acc col =>
      let (cols, idxs, fs) := acc
      let (cs, fs1) := ColumnStore.new col sm.dataDir fs
      let cols' := alistPut cols col.name cs
      let idxs' :=
        if col.name = "ID" ∨ col.name = "Name" then
          alistPut idxs col.name (Index.new col.dataType)
        else idxs
      (cols', idxs', fs1))
    (([] : List (String × ColumnStore)), ([] : List (String × Index)), sm.fs)
  let schema' ← sm.schema.add_table table.name table.columns
  pure { sm with
    columns := alistPut sm.columns table.name tableCols,
    indexes := alistPut sm.indexes table.name tableIndexes,
    schema := schema', fs := fs' }

/-- `do_flush_pending_rows` (lines 20–46): for each schema column with
pending values, append them with Dictionary compression for strings and
RLE otherwise, and record the block offset in the column's index when
one exists. -/
def do_flush_pending_rows (tablePending : List (String × List Value))
    (tableCols : List (String × ColumnStore)) (tableIndexes : List (String × Index))
    (tableDef : Table) (fs : FS) :
    Except DbError (List (String × ColumnStore) × List (String × Index) × FS) :=
  tableDef.columns.foldlM
    (fun acc col => do
      let (cols, idxs, fs) := acc
      match alistGet cols col.name with
      | Option.none => throw (.invalidData "Column not found")
      | some cs => do
          let values := (alistGet tablePending col.name).getD []
          if values.isEmpty then pure (cols, idxs, fs)
          else do
            let compression :=
              match col.dataType with
              | .string => CompressionType.dictionary
              | _ => CompressionType.rle
            let (offset, cs', fs') ← cs.append values compression fs
            let cols' := alistPut cols col.name cs'
            match alistGet idxs col.name with
            | some idx => do
                let idx' ← idx.append values offset
                pure (cols', alistPut idxs col.name idx', fs')
            | Option.none => pure (cols', idxs, fs'))
    (tableCols, tableIndexes, fs)

/-- `StorageManager::insert_row` (lines 125–179): validate, reject a
duplicate first-column value when an `"ID"` index exists, buffer the row
per column, flush the table's pending buffer when the first pending
column reaches `max_rows_per_segment`, increment the table's row count. -/
def StorageManager.insert_row (sm : StorageManager) (tableName : String) (row : List Value) :
    Except DbError StorageManager := do
  let tableDef ←
    match sm.schema.get_table tableName with
    | some t => pure t
    | Option.none => throw (.invalidData "Table not found")
  sm.schema.validate_row tableName row
  let tableIndexes ←
    match alistGet sm.indexes tableName with
    | some m => pure m
    | Option.none => throw (.invalidData "Table not found")
  (match alistGet tableIndexes "ID" with
   | some idIndex => do
       let idValue ←
         match row.head? with
         | some v => pure v
         | Option.none => throw (.invalidData "panic: row[0] on empty row")
       let existing ← idIndex.lookup idValue
       if existing ≠ [] then throw (.invalidData "Duplicate ID") else pure ()
   | Option.none => pure ())
  let tablePending := (alistGet sm.pendingRows tableName).getD []
  let tablePending' := (row.zip tableDef.columns).foldl
    (fun tp p => alistPut tp p.2.name ((alistGet tp p.2.name).getD [] ++ [p.1]))
    tablePending
  let pending' := alistPut sm.pendingRows tableName tablePending'
  -- `table_pending.values().next()`: the first entry of the map (the
  -- model's insertion order instantiates the HashMap's arbitrary order).
  let firstLen := ((tablePending'.head?).map (fun p => p.2.length)).getD 0
  let sm' ←
    if firstLen ≥ sm.maxRowsPerSegment then do
      let tableCols ←
        match alistGet sm.columns tableName with
        | some m => pure m
        | Option.none => throw (.invalidData "Table not found")
      let (tableCols', tableIndexes', fs') ←
        do_flush_pending_rows tablePending' tableCols tableIndexes tableDef sm.fs
      pure { sm with
        columns := alistPut sm.columns tableName tableCols',
        indexes := alistPut sm.indexes tableName tableIndexes',
        pendingRows := alistRemove pending' tableName,
        fs := fs' }
    else
      pure { sm with pendingRows := pending' }
  let schema' :=
    match sm'.schema.get_table tableName with
    | some t =>
        let t' := { t with rowCount := t.rowCount + 1 }
        { sm'.schema with tables := alistPut sm'.schema.tables tableName t' }
    | Option.none => sm'.schema
  pure { sm' with schema := schema' }

/-- `StorageManager::read_column` (lines 181–204): block-pruned column
read with the pending buffer appended at the end. -/
def StorageManager.read_column (sm : StorageManager) (tableName columnName : String)
    (condition : Option Condition) : Except DbError (List Value) := do
  let cs ←
    match (alistGet sm.columns tableName).bind (fun m => alistGet m columnName) with
    | some cs => pure cs
    | Option.none => throw (.invalidData "Column not found")
  let values ← cs.read condition sm.fs
  let pendingValues :=
    ((alistGet sm.pendingRows tableName).bind (fun tp => alistGet tp columnName)).getD []
  pure (values ++ pendingValues)

/-- The materialization loop shared by `delete_rows` (lines 213–219,
224–229): read each listed column and fold the minimum length. -/
def materializeColumns (sm : StorageManager) (tableName : String) (cols : List String)
    (acc : List (String × List Value)) (mrc : Nat) :
    Except DbError (List (String × List Value) × Nat) :=
  cols.foldlM
    (fun p col => do
      let values ← sm.read_column tableName col Option.none
      pure (alistPut p.1 col values, Nat.min p.2 values.length))
    (acc, mrc)

/-- One iteration of the clearing loop of `delete_rows` without a
condition (lines 246–252): clear the column store (`unwrap` panics on a
missing store — surrogate error) and clear its index when one exists. -/
def clearColumnStep (acc : List (String × ColumnStore) × List (String × Index) × FS)
    (col : Column) :
    Except DbError (List (String × ColumnStore) × List (String × Index) × FS) :=
  match alistGet acc.1 col.name with
  | Option.none => throw (.invalidData "panic: unwrap on missing column store")
  | some cs =>
      let (cs', fs1) := cs.clear acc.2.2
      let tc' := alistPut acc.1 col.name cs'
      match alistGet acc.2.1 col.name with
      | some idx => pure (tc', alistPut acc.2.1 col.name idx.clear, fs1)
      | Option.none => pure (tc', acc.2.1, fs1)

/-- `StorageManager::delete_rows` (lines 206–306).  Without a condition:
clear every column store and index, drop the pending buffer, set the row
count to 0.  With a condition: keep exactly the rows the row-level
evaluator rejects, rewrite every column (Dictionary for strings, RLE
otherwise), and rebuild the indexes at offset 0. -/
def StorageManager.delete_rows (sm : StorageManager) (tableName : String)
    (condition : Option Condition) : Except DbError StorageManager := do
  let tableDef ←
    match sm.schema.get_table tableName with
    | some t => pure t
    | Option.none => throw (.invalidData "Table not found")
  let columns := tableDef.columns
  let (columnValues, minRowCount) ←
    materializeColumns sm tableName (columns.map (fun c => c.name)) [] usizeMax
  match condition with
  | Option.none => do
      let tableCols ←
        match alistGet sm.columns tableName with
        | some m => pure m
        | Option.none => throw (.invalidData "Table not found")
      let tableIndexes ←
        match alistGet sm.indexes tableName with
        | some m => pure m
        | Option.none => throw (.invalidData "Table not found")
      let (tableCols', tableIndexes', fs') ← columns.foldlM clearColumnStep
        (tableCols, tableIndexes, sm.fs)
      let schema' :=
        match sm.schema.get_table tableName with
        | some t =>
            let t' := { t with rowCount := 0 }
            { sm.schema with tables := alistPut sm.schema.tables tableName t' }
        | Option.none => sm.schema
      pure { sm with
        columns := alistPut sm.columns tableName tableCols',
        indexes := alistPut sm.indexes tableName tableIndexes',
        pendingRows := alistRemove sm.pendingRows tableName,
        schema := schema', fs := fs' }
  | some cond => do
      let condCols := (collect_condition_columns cond).filter
        (fun c => (alistGet columnValues c).isNone)
      let (columnValues, minRowCount) ←
        materializeColumns sm tableName condCols columnValues minRowCount
      let keepIndices ← (List.range minRowCount).foldlM
        (fun acc i => do
          let b ← evaluate_condition_row cond columnValues i
          pure (if b then acc else acc ++ [i]))
        ([] : List Nat)
      let tableCols ←
        match alistGet sm.columns tableName with
        | some m => pure m
        | Option.none => throw (.invalidData "Table not found")
      let tableIndexes ←
        match alistGet sm.indexes tableName with
        | some m => pure m
        | Option.none => throw (.invalidData "Table not found")
      let (tableCols', tableIndexes', fs') ← columns.foldlM
        (fun acc col => do
          let (tc, ti, fs) := acc
          match alistGet tc col.name with
          | Option.none => throw (.invalidData "panic: unwrap on missing column store")
          | some cs => do
              let values := (alistGet columnValues col.name).getD
                (match cs.read Option.none fs with
                 | .ok vs => vs
                 | .error _ => [])
              let filteredValues := (keepIndices.filter (fun i => i < values.length)).map
                (fun i => (values.get? i).getD (Value.int32 0))
              let (cs1, fs1) := cs.clear fs
              let (cs2, fs2) ←
                if filteredValues.isEmpty then pure (cs1, fs1)
                else do
                  let compression :=
                    match col.dataType with
                    | .string => CompressionType.dictionary
                    | _ => CompressionType.rle
                  let (_, cs2, fs2) ← cs1.append filteredValues compression fs1
                  pure (cs2, fs2)
              let tc' := alistPut tc col.name cs2
              match alistGet ti col.name with
              | some idx => do
                  let idx1 := idx.clear
                  let idx2 ←
                    if filteredValues.isEmpty then pure idx1
                    else idx1.append filteredValues 0
                  pure (tc', alistPut ti col.name idx2, fs2)
              | Option.none => pure (tc', ti, fs2))
        (tableCols, tableIndexes, sm.fs)
      let schema' :=
        match sm.schema.get_table tableName with
        | some t =>
            let t' := { t with rowCount := keepIndices.length }
            { sm.schema with tables := alistPut sm.schema.tables tableName t' }
        | Option.none => sm.schema
      pure { sm with
        columns := alistPut sm.columns tableName tableCols',
        indexes := alistPut sm.indexes tableName tableIndexes',
        pendingRows := alistRemove sm.pendingRows tableName,
        schema := schema', fs := fs' }

/-! ## Query engine (`src/src/query/planner.rs`)

Quantities at the `f32` arithmetic boundary (Sum/Avg) are abstracted as
an explicit dictionary of IEEE operations on bit patterns; every theorem
about them holds for the real `f32` semantics as one instance. -/

/-- `Aggregation` from `query/mod.rs`. -/
inductive Aggregation : Type
  | count
  | sum (col : String)
  | avg (col : String)
  | min (col : String)
  | max (col : String)
deriving DecidableEq, Repr

/-- `Query` from `query/mod.rs`, restricted to the variants the verified
claims exercise (`Join`, `DropTable`, `MakeIndex`, `DropIndex` are not
modelled). -/
inductive Query : Type
  | select (table : String) (columns : List String) (condition : Option Condition)
  | selectAggregate (table : String) (aggregations : List Aggregation)
      (condition : Option Condition)
  | insert (table : String) (values : List Value)
  | createTable (table : String) (columns : List (String × DataType))
  | delete (table : String) (condition : Option Condition)
  | startTransaction
  | commit
  | rollback
deriving DecidableEq, Repr

/-- The `f32` arithmetic used by Sum/Avg, as operations on 32-bit IEEE
patterns: `add` is `f32` addition, `div` is `f32` division, `ofInt` is
the `i32 as f32` cast, `ofNat` is the `usize as f32` cast. -/
structure F32Ops : Type where
  add : Nat → Nat → Nat
  div : Nat → Nat → Nat
  ofInt : Int → Nat
  ofNat : Nat → Nat

/-- The Sum fold of `execute_aggregate` (planner lines 241–249 and
257–265): start from `Float32(0.0)`, add floats directly, cast ints. -/
def sumFold (ops : F32Ops) (values : List Value) : Value :=
  values.foldl
    (fun acc v =>
      match acc, v with
      | .float32 a, .float32 b => .float32 (ops.add a b)
      | .float32 a, .int32 b => .float32 (ops.add a (ops.ofInt b))
      | _, _ => acc)
    (.float32 f32ZeroBits)

/-- One aggregation result from the materialized values
(`execute_aggregate` lines 233–283). -/
def executeAggregateOne (ops : F32Ops) (colType : DataType) (values : List Value) :
    Aggregation → Except DbError Value
  | .count => .ok (.int32 (bitsToInt32 (values.length % 2 ^ 32)))
  | .sum _ =>
      if colType ≠ DataType.float32 ∧ colType ≠ DataType.int32 then
        .error (.invalidData "SUM not supported for type")
      else .ok (sumFold ops values)
  | .avg _ =>
      if colType ≠ DataType.float32 ∧ colType ≠ DataType.int32 then
        .error (.invalidData "AVG not supported for type")
      else
        match sumFold ops values with
        | .float32 s =>
            if values.length > 0 then .ok (.float32 (ops.div s (ops.ofNat values.length)))
            else .ok (.float32 f32ZeroBits)
        | _ => .ok (.float32 f32ZeroBits)
  | .min _ => .ok (iterMinBy values (.float32 f32ZeroBits))
  | .max _ => .ok (iterMaxBy values (.float32 f32ZeroBits))

/-- `QueryEngine::execute_aggregate` (planner lines 206–287): for each
aggregation, materialize the referenced column (`Count` uses `"ID"`) and
compute; returns a single row of results in input order. -/
def execute_aggregate (ops : F32Ops) (sm : StorageManager) (table : String)
    (aggregations : List Aggregation) (condition : Option Condition) :
    Except DbError (List (List Value)) := do
  let tableDef ←
    match sm.schema.get_table table with
    | some t => pure t
    | Option.none => throw (.invalidData "Table not found")
  let results ← aggregations.foldlM
    (fun acc agg => do
      let column :=
        match agg with
        | .count => "ID"
        | .sum c => c
        | .avg c => c
        | .min c => c
        | .max c => c
      let colDef ←
        match tableDef.get_column column with
        | some c => pure c
        | Option.none => throw (.invalidData "Column not found")
      let values ← sm.read_column table column condition
      let r ← executeAggregateOne ops colDef.dataType values agg
      pure (acc ++ [r]))
    ([] : List Value)
  pure [results]

/-- `QueryEngine::execute_select` (planner lines 142–203): validate the
projection, extend it with the condition's columns, materialize each
required column with block pruning, fix the row count at the minimum
materialized length, then row-filter and project.  (Out-of-bounds
projection cannot occur: every index is below the minimum length; the
`getD` default is the unreachable-panic surrogate.) -/
def execute_select (sm : StorageManager) (table : String) (columns : List String)
    (condition : Option Condition) : Except DbError (List (List Value)) := do
  let tableDef ←
    match sm.schema.get_table table with
    | some t => pure t
    | Option.none => throw (.invalidData "Table not found")
  if columns.any (fun col => ¬ tableDef.columns.any (fun c => c.name = col)) then
    throw (.invalidData "Column not found")
  let requiredColumns ←
    match condition with
    | some cond => do
        let condCols := collect_condition_columns cond
        if condCols.any (fun col => ¬ tableDef.columns.any (fun c => c.name = col)) then
          throw (.invalidData "Column not found in condition")
        pure (columns ++ condCols.filter (fun c => ¬ columns.contains c))
    | Option.none => pure columns
  let (columnValues, minRowCount) ← requiredColumns.foldlM
    (fun p col => do
      let values ← sm.read_column table col condition
      pure (alistPut p.1 col values, Nat.min p.2 values.length))
    (([] : List (String × List Value)), usizeMax)
  (List.range minRowCount).foldlM
    (fun acc i => do
      let keep ←
        match condition with
        | some cond => evaluate_condition_row cond columnValues i
        | Option.none => pure true
      if keep then
        pure (acc ++ [columns.map
          (fun col => (((alistGet columnValues col).getD []).get? i).getD (Value.int32 0))])
      else pure acc)
    ([] : List (List Value))

/-- `QueryEngine::execute` (planner lines 19–140), for the modelled
query variants; `StartTransaction`/`Commit`/`Rollback` are engine-level
no-ops. -/
def QueryEngine.execute (ops : F32Ops) (sm : StorageManager) (query : Query) :
    Except DbError (List (List Value) × StorageManager) :=
  match query with
  | .select table columns condition => do
      let cols ←
        if columns.isEmpty then
          match sm.schema.get_table table with
          | some t => pure (t.columns.map (fun c => c.name))
          | Option.none => throw (.invalidData "Table not found")
        else pure columns
      let rows ← execute_select sm table cols condition
      pure (rows, sm)
  | .selectAggregate table aggregations condition => do
      let rows ← execute_aggregate ops sm table aggregations condition
      pure (rows, sm)
  | .insert table values => do
      let sm' ← sm.insert_row table values
      pure ([], sm')
  | .createTable table columns => do
      let tableDef : Table := ⟨table, columns.map (fun p => ⟨p.1, p.2⟩), 0⟩
      let sm' ← sm.create_table tableDef
      pure ([], sm')
  | .delete table condition => do
      let sm' ← sm.delete_rows table condition
      pure ([], sm')
  | .startTransaction => .ok ([], sm)
  | .commit => .ok ([], sm)
  | .rollback => .ok ([], sm)

/-! ## Transaction manager (`src/src/transaction/mod.rs`) -/

/-- `Transaction` from `transaction/mod.rs`. -/
structure Transaction : Type where
  id : Nat
  queries : List Query
deriving DecidableEq, Repr

/-- `Transaction::add_query` (lines 17–19). -/
def Transaction.add_query (tx : Transaction) (q : Query) : Transaction :=
  { tx with queries := tx.queries ++ [q] }

/-- `TransactionManager`: the storage handle, the id counter, and the
WAL file contents, modelled as the list of serialized transaction
records (truncation to zero length is the empty list). -/
structure TransactionManager : Type where
  storage : StorageManager
  nextTxId : Nat
  wal : List Transaction

/-- `TransactionManager::new` (lines 29–47) over a fresh WAL file.
(Pre-existing WAL contents are out of scope: no replay is performed on
startup.) -/
def TransactionManager.new (storage : StorageManager) : TransactionManager :=
  ⟨storage, 1, []⟩

/-- `TransactionManager::begin_transaction` (lines 49–56). -/
def TransactionManager.begin_transaction (tm : TransactionManager) :
    Transaction × TransactionManager :=
  (⟨tm.nextTxId, []⟩, { tm with nextTxId := tm.nextTxId + 1 })

/-- `TransactionManager::commit_transaction` (lines 58–72): write the
serialized record to the WAL, flush, execute the queries in order
concatenating result rows, then truncate the WAL.  On a mid-batch error
the `Except` convention discards the partial state (the source leaves
the WAL record in place); the theorems below use the success path only. -/
def TransactionManager.commit_transaction (ops : F32Ops) (tm : TransactionManager)
    (tx : Transaction) : Except DbError (List (List Value) × TransactionManager) := do
  let tm1 := { tm with wal := tm.wal ++ [tx] }
  let (results, storage') ← tx.queries.foldlM
    (fun acc q => do
      let (rows, st') ← QueryEngine.execute ops acc.2 q
      pure (acc.1 ++ rows, st'))
    (([] : List (List Value)), tm1.storage)
  pure (results, { tm1 with storage := storage', wal := [] })

/-- `TransactionManager::rollback_transaction` (lines 74–79): truncate
the WAL to zero length; the storage manager is not touched (the batch
was never applied). -/
def TransactionManager.rollback_transaction (tm : TransactionManager) (_tx : Transaction) :
    TransactionManager :=
  { tm with wal := [] }

/-! ## Monadic reduction helpers for `Except` do-chains -/

theorem except_bind_ok {α β : Type} (x : α) (f : α → Except DbError β) :
    (Except.ok x >>= f) = f x := rfl

theorem except_bind_error {α β : Type} (e : DbError) (f : α → Except DbError β) :
    ((Except.error e : Except DbError α) >>= f) = .error e := rfl

theorem except_pure {α : Type} (x : α) : (pure x : Except DbError α) = .ok x := rfl

theorem except_throw {α : Type} (e : DbError) : (throw e : Except DbError α) = .error e := rfl

theorem except_map_ok {α β : Type} (x : α) (f : α → β) :
    (Except.map f (Except.ok x) : Except DbError β) = .ok (f x) := rfl

/-! ## Round-trip lemmas for the compression codec -/

theorem valueEq_refl (v : Value) : valueEq v v = true := by
  cases v <;> simp [valueEq]

theorem valueEq_symm {a b : Value} (h : valueEq a b = true) : valueEq b a = true := by
  cases a <;> cases b <;> simp_all [valueEq]

theorem valueEq_trans {a b c : Value} (h1 : valueEq a b = true) (h2 : valueEq b c = true) :
    valueEq a c = true := by
  cases a <;> cases b <;> cases c <;> simp_all [valueEq]

theorem valueEq_dataType {a b : Value} (h : valueEq a b = true) : a.dataType = b.dataType := by
  cases a <;> cases b <;> simp_all [valueEq, Value.dataType]

theorem listValueEq_refl (l : List Value) : listValueEq l l = true := by
  induction l with
  | nil => rfl
  | cons v vs ih => simp [listValueEq, valueEq_refl, ih]

theorem listValueEq_append {as bs cs ds : List Value} (h1 : listValueEq as bs = true)
    (h2 : listValueEq cs ds = true) : listValueEq (as ++ cs) (bs ++ ds) = true := by
  induction as generalizing bs with
  | nil => cases bs with
      | nil => simpa using h2
      | cons b bs => simp [listValueEq] at h1
  | cons a as ih =>
      cases bs with
      | nil => simp [listValueEq] at h1
      | cons b bs =>
          simp only [listValueEq, Bool.and_eq_true] at h1
          simpa [listValueEq, h1.1] using ih h1.2

theorem listValueEq_trans {as bs cs : List Value} (h1 : listValueEq as bs = true)
    (h2 : listValueEq bs cs = true) : listValueEq as cs = true := by
  induction as generalizing bs cs with
  | nil => cases bs <;> cases cs <;> simp_all [listValueEq]
  | cons a as ih =>
      cases bs with
      | nil => simp [listValueEq] at h1
      | cons b bs =>
          cases cs with
          | nil => simp [listValueEq] at h2
          | cons c cs =>
              simp only [listValueEq, Bool.and_eq_true] at h1 h2 ⊢
              exact ⟨valueEq_trans h1.1 h2.1, ih h1.2 h2.2⟩

theorem int32Bits_lt (i : Int) : int32Bits i < 2 ^ 32 := by
  unfold int32Bits
  have h1 : (0 : Int) ≤ i % 2 ^ 32 := Int.emod_nonneg i (by norm_num)
  have h2 : i % 2 ^ 32 < 2 ^ 32 := Int.emod_lt_of_pos i (by norm_num)
  omega

theorem bitsToInt32_int32Bits {i : Int} (h1 : -(2 ^ 31) ≤ i) (h2 : i < 2 ^ 31) :
    bitsToInt32 (int32Bits i) = i := by
  unfold bitsToInt32 int32Bits
  have e1 : ((2 : Int) ^ 32) = 4294967296 := by norm_num
  have e2 : ((2 : Int) ^ 31) = 2147483648 := by norm_num
  have e3 : ((2 : Nat) ^ 31) = 2147483648 := by norm_num
  rw [e1] at *
  split <;> omega

theorem encValue_cons (v : Value) : ∃ b bs, encValue v = b :: bs := by
  cases v with
  | int32 i => exact ⟨_, _, rfl⟩
  | float32 b => exact ⟨_, _, rfl⟩
  | string s => exact ⟨_, _, rfl⟩

theorem readValueNone_encValue {dt : DataType} (v : Value) (hwf : v.WF)
    (hdt : v.dataType = dt) (rest : List Nat) :
    readValueNone dt (encValue v ++ rest) = some (v, rest) := by
  subst hdt
  cases v with
  | int32 i =>
      have hr := readN_append (leBytes 4 (int32Bits i)) rest
      rw [leBytes_length] at hr
      simp only [Value.dataType, readValueNone, encValue, hr]
      rw [fromLe_leBytes, show 8 * 4 = 32 from rfl, Nat.mod_eq_of_lt (int32Bits_lt i),
        bitsToInt32_int32Bits hwf.1 hwf.2]
  | float32 b =>
      have hr := readN_append (leBytes 4 b) rest
      rw [leBytes_length] at hr
      simp only [Value.dataType, readValueNone, encValue, hr]
      rw [fromLe_leBytes, show 8 * 4 = 32 from rfl, Nat.mod_eq_of_lt hwf]
  | string s =>
      have hr := readN_append (leBytes 8 s.length) (s ++ rest)
      rw [leBytes_length] at hr
      have hs := readN_append s rest
      have hlen : fromLe (leBytes 8 s.length) = s.length := by
        rw [fromLe_leBytes, show 8 * 8 = 64 from rfl]
        exact Nat.mod_eq_of_lt hwf
      simp only [Value.dataType, readValueNone, List.append_assoc, hr, hlen, hs, encValue]

theorem decompressNoneGo_flatMap (dt : DataType) :
    ∀ (s : List Value) (fuel : Nat), SeqWF dt s → (s.flatMap encValue).length ≤ fuel →
    decompressNoneGo dt fuel (s.flatMap encValue) = .ok s := by
  intro s
  induction s with
  | nil => intro fuel _ _; simp [decompressNoneGo]
  | cons v vs ih =>
      intro fuel hwf hlen
      have hv := hwf v (List.mem_cons_self ..)
      have hwf' : SeqWF dt vs := fun x hx => hwf x (List.mem_cons_of_mem _ hx)
      obtain ⟨b, bs, he⟩ := encValue_cons v
      rw [List.flatMap_cons] at hlen ⊢
      rw [List.length_append, he, List.length_cons] at hlen
      cases fuel with
      | zero => omega
      | succ f =>
          rw [he, List.cons_append]
          simp only [decompressNoneGo]
          rw [← List.cons_append, ← he, readValueNone_encValue v hv.1 hv.2]
          show Except.map _ (decompressNoneGo dt f (vs.flatMap encValue)) = _
          rw [ih f hwf' (by omega)]
          rfl

theorem decompressRleGo_run (dt : DataType) (v : Value) (hwf : v.WF) (hdt : v.dataType = dt)
    {count : Nat} (h1 : 1 ≤ count) (h255 : count ≤ 255) (rest : List Nat) (fuel : Nat) :
    decompressRleGo dt (fuel + 1) (count % 256 :: (encValue v ++ rest)) =
      (decompressRleGo dt fuel rest).map (fun l => List.replicate count v ++ l) := by
  have hcm : count % 256 = count := Nat.mod_eq_of_lt (by omega)
  simp only [decompressRleGo, hcm]
  rw [if_neg (by omega), readValueNone_encValue v hwf hdt]

theorem rleGo_decode (dt : DataType) :
    ∀ (vs : List Value) (current : Value) (count : Nat) (bs : List Nat),
      current.WF → current.dataType = dt → SeqWF dt vs → 1 ≤ count →
      rleGo current count vs = .ok bs →
      ∀ fuel, bs.length ≤ fuel →
      ∃ out, decompressRleGo dt fuel bs = .ok out ∧
        listValueEq out (List.replicate count current ++ vs) = true := by
  intro vs
  induction vs with
  | nil =>
      intro current count bs hwf hdt _ h1 henc fuel hfuel
      unfold rleGo write_rle_value at henc
      by_cases h255 : count > 255
      · rw [if_pos h255] at henc; cases henc
      · rw [if_neg h255] at henc
        have hbs : bs = count % 256 :: encValue current := by
          cases henc; rfl
        subst hbs
        rw [List.length_cons] at hfuel
        cases fuel with
        | zero => omega
        | succ f =>
            refine ⟨List.replicate count current, ?_, ?_⟩
            · rw [show encValue current = encValue current ++ [] from (List.append_nil _).symm,
                decompressRleGo_run dt current hwf hdt h1 (by omega) [] f]
              simp [decompressRleGo, Except.map]
            · rw [List.append_nil]
              exact listValueEq_refl _
  | cons v rest ih =>
      intro current count bs hwf hdt hseq h1 henc fuel hfuel
      have hv := hseq v (List.mem_cons_self ..)
      have hrest : SeqWF dt rest := fun x hx => hseq x (List.mem_cons_of_mem _ hx)
      unfold rleGo at henc
      by_cases heq : valueEq v current = true
      · rw [if_pos heq] at henc
        obtain ⟨out, hdec, heqv⟩ :=
          ih current (count + 1) bs hwf hdt hrest (by omega) henc fuel hfuel
        refine ⟨out, hdec, listValueEq_trans heqv ?_⟩
        rw [List.replicate_succ', List.append_assoc]
        apply listValueEq_append (listValueEq_refl _)
        simp only [List.singleton_append, listValueEq, Bool.and_eq_true]
        exact ⟨valueEq_symm heq, listValueEq_refl _⟩
      · rw [if_neg heq] at henc
        unfold write_rle_value at henc
        by_cases h255 : count > 255
        · rw [if_pos h255] at henc
          cases henc
        · rw [if_neg h255] at henc
          cases hr : rleGo v 1 rest with
          | error e => rw [hr] at henc; cases henc
          | ok b2 =>
              rw [hr] at henc
              have hbs : bs = (count % 256 :: encValue current) ++ b2 := by
                cases henc; rfl
              subst hbs
              rw [List.cons_append, List.length_cons, List.length_append] at hfuel
              cases fuel with
              | zero => omega
              | succ f =>
                  obtain ⟨out2, hdec2, heqv2⟩ :=
                    ih v 1 b2 hv.1 hv.2 hrest (le_refl 1) hr f (by omega)
                  refine ⟨List.replicate count current ++ out2, ?_, ?_⟩
                  · rw [List.cons_append,
                      decompressRleGo_run dt current hwf hdt h1 (by omega) b2 f, hdec2]
                    rfl
                  · apply listValueEq_append (listValueEq_refl _)
                    simpa using heqv2

theorem decompress_compress_rle {dt : DataType} {s : List Value} {bs : List Nat}
    (hwf : SeqWF dt s) (h : compress s .rle = .ok bs) :
    ∃ out, decompress bs .rle dt = .ok out ∧ listValueEq out s = true := by
  cases s with
  | nil =>
      have hbs : bs = [] := by
        unfold compress at h
        cases h; rfl
      subst hbs
      exact ⟨[], by simp [decompress, decompressRleGo], rfl⟩
  | cons v vs =>
      have hv := hwf v (List.mem_cons_self ..)
      have hvs : SeqWF dt vs := fun x hx => hwf x (List.mem_cons_of_mem _ hx)
      have henc : rleGo v 1 vs = .ok bs := h
      obtain ⟨out, hdec, heqv⟩ :=
        rleGo_decode dt vs v 1 bs hv.1 hv.2 hvs (le_refl 1) henc bs.length (le_refl _)
      exact ⟨out, hdec, by simpa using heqv⟩

theorem decompress_compress_none {dt : DataType} {s : List Value} {bs : List Nat}
    (hwf : SeqWF dt s) (h : compress s .none = .ok bs) :
    decompress bs .none dt = .ok s := by
  have hbs : bs = s.flatMap encValue := by
    unfold compress at h
    cases h; rfl
  subst hbs
  exact decompressNoneGo_flatMap dt s _ hwf (le_refl _)

/-! ### Dictionary round trip -/

/-- The ids stored in a dictionary association list are pairwise distinct. -/
def IdsDistinct (dict : List (List Nat × Nat)) : Prop :=
  List.Pairwise (fun p q => p.2 ≠ q.2) dict

theorem dictLookup_mem {dict : List (List Nat × Nat)} {s : List Nat} {id : Nat}
    (h : dictLookup dict s = some id) : (s, id) ∈ dict := by
  induction dict with
  | nil => cases h
  | cons p rest ih =>
      obtain ⟨t, i⟩ := p
      by_cases ht : t = s
      · subst ht
        simp only [dictLookup, if_pos rfl] at h
        cases h
        exact List.mem_cons_self ..
      · simp only [dictLookup, if_neg ht] at h
        exact List.mem_cons_of_mem _ (ih h)

theorem forall2_mem_right {R : α → β → Prop} :
    ∀ {l1 : List α} {l2 : List β}, List.Forall₂ R l1 l2 → ∀ b ∈ l2, ∃ a ∈ l1, R a b := by
  intro l1 l2 h
  induction h with
  | nil => intro b hb; cases hb
  | cons hr _ ih =>
      intro b hb
      rcases List.mem_cons.mp hb with rfl | hb'
      · exact ⟨_, List.mem_cons_self .., hr⟩
      · obtain ⟨a, ha, har⟩ := ih b hb'
        exact ⟨a, List.mem_cons_of_mem _ ha, har⟩

theorem dictEncode_spec (s : List Value) :
    ∀ (dict : List (List Nat × Nat)) (next : Nat) (bs : List Nat)
      (dict' : List (List Nat × Nat)),
      (∀ p ∈ dict, p.2 < next) → IdsDistinct dict →
      dictEncode s dict next = .ok (bs, dict') →
      ∃ ids : List Nat,
        bs = ids.flatMap (leBytes 8) ∧
        dict <+: dict' ∧
        (∀ p ∈ dict', p.2 < next + s.length) ∧
        IdsDistinct dict' ∧
        dict'.length ≤ dict.length + s.length ∧
        (∀ p ∈ dict', p ∈ dict ∨ Value.string p.1 ∈ s) ∧
        List.Forall₂ (fun v id => ∃ str, v = Value.string str ∧ (str, id) ∈ dict') s ids := by
  induction s with
  | nil =>
      intro dict next bs dict' hnext hdist henc
      have hb : bs = [] ∧ dict' = dict := by
        unfold dictEncode at henc
        cases henc
        exact ⟨rfl, rfl⟩
      obtain ⟨rfl, rfl⟩ := hb
      exact ⟨[], rfl, List.prefix_refl _, fun p hp => by simpa using hnext p hp, hdist,
        by simp, fun p hp => Or.inl hp, List.Forall₂.nil⟩
  | cons v rest ih =>
      intro dict next bs dict' hnext hdist henc
      cases v with
      | int32 i => exact absurd henc (by simp [dictEncode])
      | float32 b => exact absurd henc (by simp [dictEncode])
      | string str =>
          unfold dictEncode at henc
          cases hl : dictLookup dict str with
          | some id =>
              rw [hl] at henc
              cases he : dictEncode rest dict next with
              | error e => rw [he] at henc; cases henc
              | ok p =>
                  obtain ⟨bs0, d0⟩ := p
                  rw [he] at henc
                  have hb : bs = leBytes 8 id ++ bs0 ∧ dict' = d0 := by
                    cases henc; exact ⟨rfl, rfl⟩
                  obtain ⟨rfl, rfl⟩ := hb
                  obtain ⟨ids0, hbs0, hpre, hbound, hdist', hlen', horig, hfa⟩ :=
                    ih dict next bs0 dict' hnext hdist he
                  refine ⟨id :: ids0, by simp [hbs0], hpre, ?_, hdist', ?_, ?_, ?_⟩
                  · intro p hp
                    have := hbound p hp
                    simp only [List.length_cons]
                    omega
                  · simp only [List.length_cons]
                    omega
                  · intro p hp
                    rcases horig p hp with h | h
                    · exact Or.inl h
                    · exact Or.inr (List.mem_cons_of_mem _ h)
                  · refine List.Forall₂.cons ⟨str, rfl, ?_⟩
                      (hfa.imp fun {a b} hab => ?_)
                    · exact hpre.subset (dictLookup_mem hl)
                    · obtain ⟨t, rfl, hmem⟩ := hab
                      exact ⟨t, rfl, hmem⟩
          | none =>
              rw [hl] at henc
              cases he : dictEncode rest (dict ++ [(str, next)]) (next + 1) with
              | error e => rw [he] at henc; cases henc
              | ok p =>
                  obtain ⟨bs0, d0⟩ := p
                  rw [he] at henc
                  have hb : bs = leBytes 8 next ++ bs0 ∧ dict' = d0 := by
                    cases henc; exact ⟨rfl, rfl⟩
                  obtain ⟨rfl, rfl⟩ := hb
                  have hnext1 : ∀ p ∈ dict ++ [(str, next)], p.2 < next + 1 := by
                    intro p hp
                    rcases List.mem_append.mp hp with h | h
                    · have := hnext p h; omega
                    · simp at h; subst h; simp
                  have hdist1 : IdsDistinct (dict ++ [(str, next)]) := by
                    unfold IdsDistinct at hdist ⊢
                    rw [List.pairwise_append]
                    refine ⟨hdist, List.pairwise_singleton _ _, ?_⟩
                    intro a ha b hb
                    simp only [List.mem_singleton] at hb
                    subst hb
                    have := hnext a ha
                    omega
                  obtain ⟨ids0, hbs0, hpre, hbound, hdist', hlen', horig, hfa⟩ :=
                    ih (dict ++ [(str, next)]) (next + 1) bs0 dict' hnext1 hdist1 he
                  refine ⟨next :: ids0, by simp [hbs0],
                    (List.prefix_append _ _).trans hpre, ?_, hdist', ?_, ?_, ?_⟩
                  · intro p hp
                    have := hbound p hp
                    simp only [List.length_cons]
                    omega
                  · have := hlen'
                    simp only [List.length_append, List.length_singleton] at this
                    simp only [List.length_cons]
                    omega
                  · intro p hp
                    rcases horig p hp with h | h
                    · rcases List.mem_append.mp h with h' | h'
                      · exact Or.inl h'
                      · simp only [List.mem_singleton] at h'
                        subst h'
                        exact Or.inr (List.mem_cons_self ..)
                    · exact Or.inr (List.mem_cons_of_mem _ h)
                  · refine List.Forall₂.cons ⟨str, rfl, ?_⟩
                      (hfa.imp fun {a b} hab => hab)
                    exact hpre.subset (List.mem_append.mpr (Or.inr (List.mem_singleton.mpr rfl)))

theorem readU64_leBytes {id : Nat} (hid : id < 2 ^ 64) (rest : List Nat) :
    readU64 (leBytes 8 id ++ rest) = some (id, rest) := by
  have hr := readN_append (leBytes 8 id) rest
  rw [leBytes_length] at hr
  simp only [readU64, hr, fromLe_leBytes, show 8 * 8 = 64 from rfl, Nat.mod_eq_of_lt hid]

theorem readU64s_flatMap (ids : List Nat) (h : ∀ id ∈ ids, id < 2 ^ 64) (rest : List Nat) :
    readU64s ids.length (ids.flatMap (leBytes 8) ++ rest) = some (ids, rest) := by
  induction ids with
  | nil => simp [readU64s]
  | cons id ids ih =>
      have hid := h id (List.mem_cons_self ..)
      have hids : ∀ x ∈ ids, x < 2 ^ 64 := fun x hx => h x (List.mem_cons_of_mem _ hx)
      simp only [List.flatMap_cons, List.length_cons, List.append_assoc, readU64s,
        readU64_leBytes hid, ih hids]

theorem readDictEntries_flatMap (entries : List (List Nat × Nat))
    (h : ∀ p ∈ entries, p.2 < 2 ^ 64 ∧ p.1.length < 2 ^ 64) :
    ∀ (acc : List (Nat × List Nat)) (rest : List Nat),
      readDictEntries entries.length
        (entries.flatMap (fun p => leBytes 8 p.2 ++ leBytes 8 p.1.length ++ p.1) ++ rest) acc =
      .ok ((entries.map (fun p => (p.2, p.1))).reverse ++ acc) := by
  induction entries with
  | nil => intro acc rest; simp [readDictEntries]
  | cons p ps ih =>
      intro acc rest
      have hp := h p (List.mem_cons_self ..)
      have hps : ∀ q ∈ ps, q.2 < 2 ^ 64 ∧ q.1.length < 2 ^ 64 :=
        fun q hq => h q (List.mem_cons_of_mem _ hq)
      have hrd := readN_append p.1
        (ps.flatMap (fun q => leBytes 8 q.2 ++ leBytes 8 q.1.length ++ q.1) ++ rest)
      simp only [List.append_assoc] at hrd
      have hih := ih hps ((p.2, p.1) :: acc) rest
      simp only [List.append_assoc] at hih
      simp only [List.flatMap_cons, List.length_cons, List.append_assoc, readDictEntries,
        readU64_leBytes hp.1, readU64_leBytes hp.2, hrd, hih]
      simp

theorem dictFind_of_mem :
    ∀ (l : List (Nat × List Nat)), List.Pairwise (fun p q => p.1 ≠ q.1) l →
      ∀ {id : Nat} {s : List Nat}, (id, s) ∈ l → dictFind l id = some s := by
  intro l
  induction l with
  | nil => intro _ id s h; cases h
  | cons p rest ih =>
      intro hdist id s hmem
      obtain ⟨i, t⟩ := p
      rcases List.mem_cons.mp hmem with h | h
      · cases h
        simp [dictFind]
      · have hne : i ≠ id := by
          have := (List.pairwise_cons.mp hdist).1 (id, s) h
          simpa using this
        simp only [dictFind, if_neg hne]
        exact ih (List.pairwise_cons.mp hdist).2 h

theorem mapIds_spec (d : List (Nat × List Nat)) :
    ∀ {s : List Value} {ids : List Nat},
      List.Forall₂ (fun v id => ∃ str, v = Value.string str ∧ dictFind d id = some str) s ids →
      mapIds d ids = .ok s := by
  intro s ids h
  induction h with
  | nil => rfl
  | cons hr _ ih =>
      obtain ⟨str, rfl, hfind⟩ := hr
      simp only [mapIds, hfind, ih]
      rfl

theorem decompress_compress_dictionary {dt : DataType} {s : List Value} {bs : List Nat}
    (hwf : ∀ v ∈ s, Value.WF v) (hslen : s.length < 2 ^ 64)
    (h : compress s .dictionary = .ok bs) :
    decompress bs .dictionary dt = .ok s := by
  unfold compress at h
  cases he : dictEncode s [] 0 with
  | error e => rw [he] at h; cases h
  | ok p =>
      obtain ⟨idsBytes, dict⟩ := p
      rw [he] at h
      have hbs : bs = leBytes 8 s.length ++ (idsBytes ++ (leBytes 8 dict.length ++
          dict.flatMap (fun q => leBytes 8 q.2 ++ leBytes 8 q.1.length ++ q.1))) := by
        cases h
        simp
      obtain ⟨ids, hib, _, hbound, hdist, hdlen, horig, hfa⟩ :=
        dictEncode_spec s [] 0 idsBytes dict (by simp) (by simp [IdsDistinct]) he
      have hidlt : ∀ id ∈ ids, id < 2 ^ 64 := by
        intro id hid
        obtain ⟨v, _, str, _, hmem⟩ := forall2_mem_right hfa id hid
        have := hbound (str, id) hmem
        simp only [Nat.zero_add] at this
        omega
      have hdictwf : ∀ q ∈ dict, q.2 < 2 ^ 64 ∧ q.1.length < 2 ^ 64 := by
        intro q hq
        constructor
        · have := hbound q hq
          simp only [Nat.zero_add] at this
          omega
        · rcases horig q hq with h0 | h0
          · cases h0
          · exact hwf _ h0
      subst hbs
      simp only [decompress, readU64_leBytes hslen]
      by_cases hz : s.length = 0
      · rw [if_pos hz]
        have hs0 : s = [] := List.length_eq_zero.mp hz
        rw [hs0]
      · have hlenids : ids.length = s.length := hfa.length_eq.symm
        have hdl : dict.length < 2 ^ 64 := by
          simp only [List.length_nil] at hdlen
          omega
        have hre := readDictEntries_flatMap dict hdictwf [] []
        rw [List.append_nil] at hre
        have hru := readU64s_flatMap ids hidlt
          (leBytes 8 dict.length ++
            dict.flatMap (fun q => leBytes 8 q.2 ++ leBytes 8 q.1.length ++ q.1))
        rw [hlenids] at hru
        simp only [if_neg hz, hib, hru, readU64_leBytes hdl, hre]
        apply mapIds_spec
        have hdist2 : List.Pairwise (fun p q => p.1 ≠ q.1)
            ((dict.map (fun q => (q.2, q.1))).reverse ++ []) := by
          rw [List.append_nil, List.pairwise_reverse]
          refine List.Pairwise.map _ (fun a b hab => ?_) hdist
          exact fun hx => hab hx.symm
        refine hfa.imp fun a b hab => ?_
        obtain ⟨str, rfl, hmem⟩ := hab
        refine ⟨str, rfl, dictFind_of_mem _ hdist2 ?_⟩
        rw [List.append_nil, List.mem_reverse]
        exact List.mem_map.mpr ⟨(str, b), hmem, rfl⟩

/-- RLE grouping over a constant sequence accumulates one run:
`rleGo current count (replicate m current) = write_rle_value current (count + m)`. -/
theorem rleGo_all_equal (current : Value) :
    ∀ (m count : Nat),
      rleGo current count (List.replicate m current) = write_rle_value current (count + m) := by
  intro m
  induction m with
  | zero => intro count; simp [rleGo]
  | succ m ih =>
      intro count
      rw [List.replicate_succ]
      show rleGo current count (current :: List.replicate m current) = _
      simp only [rleGo, if_pos (valueEq_refl current), ih]
      congr 1
      omega

/-- RLE grouping absorbs any prefix of values Rust-equal to the open
run's value into its count. -/
theorem rleGo_append_equal (current : Value) :
    ∀ (run : List Value) (count : Nat) (suf : List Value),
      (∀ x ∈ run, valueEq x current = true) →
      rleGo current count (run ++ suf) = rleGo current (count + run.length) suf := by
  intro run
  induction run with
  | nil => intro count suf _; simp
  | cons x run ih =>
      intro count suf hall
      simp only [List.cons_append]
      simp only [rleGo]
      rw [if_pos (hall x (List.mem_cons_self ..))]
      rw [ih (count + 1) suf (fun y hy => hall y (List.mem_cons_of_mem _ hy))]
      congr 1
      simp only [List.length_cons]
      omega

/-- An open run whose count already exceeds 255 can only end in the
run-length error: whichever write eventually closes it sees at least
that count. -/
theorem rleGo_big_count (l : List Value) :
    ∀ (current : Value) (count : Nat), 255 < count →
      rleGo current count l = .error (.invalidData "RLE run length exceeds 255") := by
  induction l with
  | nil =>
      intro current count h
      show write_rle_value current count = _
      unfold write_rle_value
      rw [if_pos h]
  | cons v rest ih =>
      intro current count h
      simp only [rleGo]
      by_cases hv : valueEq v current = true
      · rw [if_pos hv]
        exact ih current (count + 1) (by omega)
      · rw [if_neg hv]
        rw [show write_rle_value current count =
            (.error (.invalidData "RLE run length exceeds 255") : Except DbError (List Nat))
          from by unfold write_rle_value; rw [if_pos h]]
        rfl

/-- The only error `write_rle_value` produces is the run-length error. -/
theorem write_rle_value_error (v : Value) (count : Nat) (e : DbError)
    (h : write_rle_value v count = .error e) :
    e = .invalidData "RLE run length exceeds 255" := by
  unfold write_rle_value at h
  by_cases hc : count > 255
  · rw [if_pos hc] at h; cases h; rfl
  · rw [if_neg hc] at h; cases h

/-- Opening a fresh run at the head of more than 255 Rust-equal values
ends in the run-length error. -/
theorem rleGo_run_head (x0 v : Value) (run' suf : List Value)
    (hlen : 255 < run'.length + 1) (hx0 : valueEq x0 v = true)
    (hall : ∀ y ∈ run', valueEq y v = true) :
    rleGo x0 1 (run' ++ suf) = .error (.invalidData "RLE run length exceeds 255") := by
  rw [rleGo_append_equal x0 run' 1 suf
    (fun y hy => valueEq_trans (hall y hy) (valueEq_symm hx0))]
  exact rleGo_big_count suf x0 (1 + run'.length) (by omega)

/-- RLE grouping fails with the run-length error whenever the remaining
input contains more than 255 adjacent Rust-equal values. -/
theorem rleGo_long_run (pre : List Value) :
    ∀ (current : Value) (count : Nat) (run : List Value) (v : Value) (suf : List Value),
      255 < run.length → (∀ x ∈ run, valueEq x v = true) →
      rleGo current count (pre ++ run ++ suf) =
        .error (.invalidData "RLE run length exceeds 255") := by
  induction pre with
  | nil =>
      intro current count run v suf hlen hall
      obtain ⟨x0, run', rfl⟩ : ∃ x0 run', run = x0 :: run' := by
        cases run with
        | nil => simp at hlen
        | cons a b => exact ⟨a, b, rfl⟩
      have hx0v : valueEq x0 v = true := hall x0 (List.mem_cons_self ..)
      have hlen' : 255 < run'.length + 1 := by simpa using hlen
      simp only [List.nil_append, List.cons_append]
      simp only [rleGo]
      by_cases hx : valueEq x0 current = true
      · rw [if_pos hx]
        have hvc : valueEq v current = true := valueEq_trans (valueEq_symm hx0v) hx
        rw [rleGo_append_equal current run' (count + 1) suf
          (fun y hy => valueEq_trans (hall y (List.mem_cons_of_mem _ hy)) hvc)]
        exact rleGo_big_count suf current (count + 1 + run'.length) (by omega)
      · rw [if_neg hx]
        have hinner := rleGo_run_head x0 v run' suf hlen' hx0v
          (fun y hy => hall y (List.mem_cons_of_mem _ hy))
        cases hw : write_rle_value current count with
        | error e =>
            rw [write_rle_value_error current count e hw]
            rfl
        | ok b =>
            rw [hinner]
            rfl
  | cons p pre' ih =>
      intro current count run v suf hlen hall
      simp only [List.cons_append]
      simp only [rleGo]
      by_cases hp : valueEq p current = true
      · rw [if_pos hp]
        exact ih current (count + 1) run v suf hlen hall
      · rw [if_neg hp]
        have hinner := ih p 1 run v suf hlen hall
        cases hw : write_rle_value current count with
        | error e =>
            rw [write_rle_value_error current count e hw]
            rfl
        | ok b =>
            rw [hinner]
            rfl

/-- Every successful RLE grouping is a concatenation of emitted runs
whose u8 counts lie in `[1, 255]` (the open run's count stays ≥ 1). -/
theorem rleGo_runs (l : List Value) :
    ∀ (current : Value) (count : Nat) (bs : List Nat), 1 ≤ count →
      rleGo current count l = .ok bs →
      ∃ runs : List (Nat × Value),
        bs = runs.flatMap (fun p => p.1 :: encValue p.2) ∧
        ∀ p ∈ runs, 1 ≤ p.1 ∧ p.1 ≤ 255 := by
  induction l with
  | nil =>
      intro current count bs h1 h
      simp only [rleGo] at h
      unfold write_rle_value at h
      by_cases hc : count > 255
      · rw [if_pos hc] at h
        exact Except.noConfusion h
      · rw [if_neg hc] at h
        obtain rfl := (Except.ok.inj h).symm
        refine ⟨[(count % 256, current)], by simp, ?_⟩
        intro p hp
        rw [List.mem_singleton] at hp
        subst hp
        constructor
        · show 1 ≤ count % 256
          omega
        · show count % 256 ≤ 255
          omega
  | cons x rest ih =>
      intro current count bs h1 h
      simp only [rleGo] at h
      by_cases hx : valueEq x current = true
      · rw [if_pos hx] at h
        exact ih current (count + 1) bs (by omega) h
      · rw [if_neg hx] at h
        cases hw : write_rle_value current count with
        | error e =>
            rw [hw, except_bind_error] at h
            exact Except.noConfusion h
        | ok b =>
            simp only [hw, except_bind_ok] at h
            cases hr : rleGo x 1 rest with
            | error e =>
                rw [hr, except_bind_error] at h
                exact Except.noConfusion h
            | ok r =>
                simp only [hr, except_bind_ok, except_pure] at h
                obtain rfl := (Except.ok.inj h).symm
                obtain ⟨runs', hbs', hbd'⟩ := ih x 1 r (Nat.le_refl 1) hr
                have hb : count ≤ 255 ∧ b = count :: encValue current := by
                  unfold write_rle_value at hw
                  by_cases hc : count > 255
                  · rw [if_pos hc] at hw
                    exact Except.noConfusion hw
                  · rw [if_neg hc] at hw
                    refine ⟨by omega, ?_⟩
                    have hbw := Except.ok.inj hw
                    rw [← hbw, Nat.mod_eq_of_lt (by omega)]
                refine ⟨(count, current) :: runs', ?_, ?_⟩
                · rw [hb.2, hbs']
                  simp [List.flatMap_cons]
                · intro p hp
                  rcases List.mem_cons.mp hp with rfl | hp'
                  · exact ⟨h1, hb.1⟩
                  · exact hbd' p hp'

/-- The general round trip, any scheme (shared by several claims). -/
theorem decompress_compress {c : CompressionType} {dt : DataType} {s : List Value}
    {bs : List Nat} (hwf : SeqWF dt s) (hlen : s.length < 2 ^ 64)
    (h : compress s c = .ok bs) :
    ∃ out, decompress bs c dt = .ok out ∧ listValueEq out s = true := by
  cases c with
  | none => exact ⟨s, decompress_compress_none hwf h, listValueEq_refl s⟩
  | rle => exact decompress_compress_rle hwf h
  | dictionary =>
      exact ⟨s, decompress_compress_dictionary (fun v hv => (hwf v hv).1) hlen h,
        listValueEq_refl s⟩

/-! ## Claim theorems: compression (C1, C2, C8) -/

/-- **C1**: For every compression scheme `c ∈ {None, Rle, Dictionary}`
and every sequence `s` of values matching the target data type,
decompressing the bytes produced by a successful `compress(s, c)` with
that data type returns exactly the original sequence (pointwise Rust
`Value` equality, the equality `decode(encode(s, c)) == s` denotes). -/
theorem C1_compress_decompress_roundtrip
    (c : CompressionType) (dt : DataType) (s : List Value) (bs : List Nat)
    (hwf : SeqWF dt s) (hlen : s.length < 2 ^ 64)
    (h : compress s c = .ok bs) :
    ∃ out, decompress bs c dt = .ok out ∧ listValueEq out s = true :=
  decompress_compress hwf hlen h

/-- Witness for C1 at a concrete RLE input `[5, 5, 6] : Int32`. -/
theorem C1_compress_decompress_roundtrip_witness :
    ∃ out, decompress [2, 5, 0, 0, 0, 1, 6, 0, 0, 0] .rle .int32 = .ok out ∧
      listValueEq out [Value.int32 5, Value.int32 5, Value.int32 6] = true :=
  C1_compress_decompress_roundtrip .rle .int32
    [Value.int32 5, Value.int32 5, Value.int32 6]
    [2, 5, 0, 0, 0, 1, 6, 0, 0, 0] (by decide) (by decide) rfl

/-- **C2 counterexample**: a run of 256 equal values makes RLE
compression fail with `InvalidData` — the run is *not* split into
several runs and compression does *not* succeed. -/
theorem C2_counterexample :
    compress (List.replicate 256 (Value.int32 7)) .rle =
      .error (.invalidData "RLE run length exceeds 255") := by
  show rleGo (Value.int32 7) 1 (List.replicate 255 (Value.int32 7)) = _
  rw [rleGo_all_equal (Value.int32 7) 255 1]
  rfl

/-- **C2 (amended)**: every run RLE compression emits carries a `u8`
count with 1 ≤ count ≤ 255 — a successful compression is exactly a
concatenation of such runs; any sequence containing anywhere within it
more than 255 adjacent Rust-equal values makes `compress` fail with the
`InvalidData` "RLE run length exceeds 255" error instead of splitting
the run; `write_rle_value` succeeds exactly up to count 255, emitting
the count byte then the encoded value; and whenever RLE compression
succeeds the output round-trips through decompression to the original
sequence. -/
theorem C2_rle_run_bounds :
    (∀ (pre run suf : List Value) (v : Value),
      255 < run.length → (∀ x ∈ run, valueEq x v = true) →
      compress (pre ++ run ++ suf) .rle =
        .error (.invalidData "RLE run length exceeds 255")) ∧
    (∀ (s : List Value) (bs : List Nat), compress s .rle = .ok bs →
      ∃ runs : List (Nat × Value),
        bs = runs.flatMap (fun p => p.1 :: encValue p.2) ∧
        ∀ p ∈ runs, 1 ≤ p.1 ∧ p.1 ≤ 255) ∧
    (∀ (v : Value) (count : Nat) (bs : List Nat),
      write_rle_value v count = .ok bs → count ≤ 255 ∧ bs = count :: encValue v) ∧
    (∀ (dt : DataType) (s : List Value) (bs : List Nat), SeqWF dt s →
      compress s .rle = .ok bs →
      ∃ out, decompress bs .rle dt = .ok out ∧ listValueEq out s = true) := by
  refine ⟨?_, ?_, ?_, ?_⟩
  · intro pre run suf v hlen hall
    cases pre with
    | nil =>
        obtain ⟨x0, run', rfl⟩ : ∃ x0 run', run = x0 :: run' := by
          cases run with
          | nil => simp at hlen
          | cons a b => exact ⟨a, b, rfl⟩
        show rleGo x0 1 (run' ++ suf) = _
        exact rleGo_run_head x0 v run' suf (by simpa using hlen)
          (hall x0 (List.mem_cons_self ..))
          (fun y hy => hall y (List.mem_cons_of_mem _ hy))
    | cons p pre' =>
        show rleGo p 1 (pre' ++ run ++ suf) = _
        exact rleGo_long_run pre' p 1 run v suf hlen hall
  · intro s bs h
    cases s with
    | nil =>
        obtain rfl := (Except.ok.inj h).symm
        exact ⟨[], rfl, by simp⟩
    | cons v vs =>
        exact rleGo_runs vs v 1 bs (Nat.le_refl 1) h
  · intro v count bs h
    unfold write_rle_value at h
    by_cases h255 : count > 255
    · rw [if_pos h255] at h; cases h
    · rw [if_neg h255] at h
      cases h
      exact ⟨by omega, by rw [Nat.mod_eq_of_lt (by omega : count < 256)]⟩
  · intro dt s bs hwf h
    exact decompress_compress_rle hwf h

/-- Witness for C2: the failure at a 256-run embedded between unequal
neighbours, and the run decomposition of the successful compression of
`[5, 5, 6] : Int32`. -/
theorem C2_rle_run_bounds_witness :
    compress ([Value.int32 1] ++ List.replicate 256 (Value.int32 0) ++ [Value.int32 2])
        .rle = .error (.invalidData "RLE run length exceeds 255") ∧
    (∃ runs : List (Nat × Value),
      [2, 5, 0, 0, 0, 1, 6, 0, 0, 0] = runs.flatMap (fun p => p.1 :: encValue p.2) ∧
      ∀ p ∈ runs, 1 ≤ p.1 ∧ p.1 ≤ 255) :=
  ⟨C2_rle_run_bounds.1 [Value.int32 1] (List.replicate 256 (Value.int32 0))
      [Value.int32 2] (Value.int32 0) (by rw [List.length_replicate]; omega)
      (fun x hx => by rw [List.eq_of_mem_replicate hx]; exact valueEq_refl _),
   C2_rle_run_bounds.2.1 [Value.int32 5, Value.int32 5, Value.int32 6]
      [2, 5, 0, 0, 0, 1, 6, 0, 0, 0] rfl⟩

/-- **C8 counterexample**: for the one-string sequence `["a"]`, None
compression (u64 length prefix) differs from the concatenation of
`Value::serialize` encodings (u32 length prefix). -/
theorem C8_counterexample :
    compress [Value.string [97]] .none ≠
      .ok ([Value.string [97]].flatMap Value.serialize) := by
  intro h
  simp only [compress] at h
  have := Except.ok.inj h
  simp [encValue, Value.serialize, leBytes] at this

/-- **C8 (amended)**: None compression is exactly the concatenation of
per-value encodings, where Int32 is 4 little-endian bytes and Float32 is
the 4 bytes of the IEEE bit pattern (identical to `Value::serialize`),
but a String is written with a **u64** length prefix followed by the
UTF-8 bytes, not the u32 prefix `Value::serialize` uses. -/
theorem C8_compress_none_encoding :
    (∀ s : List Value, compress s .none = .ok (s.flatMap encValue)) ∧
    (∀ v : Value, v.dataType ≠ .string → encValue v = Value.serialize v) ∧
    (∀ bytes : List Nat, encValue (.string bytes) = leBytes 8 bytes.length ++ bytes) := by
  refine ⟨fun s => rfl, ?_, fun bytes => rfl⟩
  intro v hv
  cases v with
  | int32 i => rfl
  | float32 b => rfl
  | string s => exact absurd rfl hv

/-- Witness for C8 at the concrete non-string value `Int32 5`. -/
theorem C8_compress_none_encoding_witness :
    encValue (Value.int32 5) = Value.serialize (Value.int32 5) :=
  C8_compress_none_encoding.2.1 (Value.int32 5) (by decide)

/-! ## Order lemmas for `valueCmp` -/

theorem intCmp_eq_lt {a b : Int} : intCmp a b = .lt ↔ a < b := by
  unfold intCmp
  split_ifs with h1 h2
  · simp [h1]
  · constructor
    · intro h; cases h
    · intro h; omega
  · constructor
    · intro h; cases h
    · intro h; omega

theorem intCmp_eq_eq {a b : Int} : intCmp a b = .eq ↔ a = b := by
  unfold intCmp
  split_ifs with h1 h2
  · constructor
    · intro h; cases h
    · intro h; omega
  · constructor
    · intro h; cases h
    · intro h; omega
  · constructor
    · intro _; omega
    · intro _; rfl

theorem intCmp_ne_gt {a b : Int} : (¬ intCmp a b = .gt) ↔ a ≤ b := by
  unfold intCmp
  split_ifs with h1 h2
  · constructor
    · intro _; omega
    · intro _ h; cases h
  · constructor
    · intro h; exact absurd rfl h
    · intro h; omega
  · constructor
    · intro _; omega
    · intro _ h; cases h

theorem intCmp_swap (a b : Int) : intCmp b a = (intCmp a b).swap := by
  unfold intCmp
  split_ifs <;> first | rfl | (exfalso; omega)

theorem natCmp_eq_lt {a b : Nat} : natCmp a b = .lt ↔ a < b := by
  unfold natCmp
  split_ifs with h1 h2
  · simp [h1]
  · constructor
    · intro h; cases h
    · intro h; omega
  · constructor
    · intro h; cases h
    · intro h; omega

theorem natCmp_eq_eq {a b : Nat} : natCmp a b = .eq ↔ a = b := by
  unfold natCmp
  split_ifs with h1 h2
  · constructor
    · intro h; cases h
    · intro h; omega
  · constructor
    · intro h; cases h
    · intro h; omega
  · constructor
    · intro _; omega
    · intro _; rfl

theorem natCmp_swap (a b : Nat) : natCmp b a = (natCmp a b).swap := by
  unfold natCmp
  split_ifs <;> first | rfl | (exfalso; omega)

theorem bytesCmp_eq_eq : ∀ {a b : List Nat}, bytesCmp a b = .eq ↔ a = b := by
  intro a
  induction a with
  | nil => intro b; cases b <;> simp [bytesCmp]
  | cons x xs ih =>
      intro b
      cases b with
      | nil => simp [bytesCmp]
      | cons y ys =>
          simp only [bytesCmp]
          cases hxy : natCmp x y with
          | eq =>
              have hx : x = y := natCmp_eq_eq.mp hxy
              subst hx
              simp [ih]
          | lt =>
              have hx : x < y := natCmp_eq_lt.mp hxy
              constructor
              · intro h; cases h
              · intro h
                injection h with h1 _
                omega
          | gt =>
              have hx : ¬ x < y ∧ ¬ x = y := by
                constructor
                · intro hlt; rw [natCmp_eq_lt.mpr hlt] at hxy; cases hxy
                · intro heq; rw [natCmp_eq_eq.mpr heq] at hxy; cases hxy
              constructor
              · intro h; cases h
              · intro h
                injection h with h1 _
                exact absurd h1 hx.2

theorem bytesCmp_swap : ∀ (a b : List Nat), bytesCmp b a = (bytesCmp a b).swap := by
  intro a
  induction a with
  | nil => intro b; cases b <;> simp [bytesCmp, Ordering.swap]
  | cons x xs ih =>
      intro b
      cases b with
      | nil => simp [bytesCmp, Ordering.swap]
      | cons y ys =>
          have hs := natCmp_swap x y
          simp only [bytesCmp]
          cases hxy : natCmp x y with
          | eq =>
              rw [hxy] at hs
              simp only [Ordering.swap] at hs
              rw [hs]
              simpa [Ordering.swap] using ih ys
          | lt =>
              rw [hxy] at hs
              simp only [Ordering.swap] at hs
              rw [hs]
              simp [Ordering.swap]
          | gt =>
              rw [hxy] at hs
              simp only [Ordering.swap] at hs
              rw [hs]
              simp [Ordering.swap]

theorem bytesCmp_le_trans :
    ∀ {a b c : List Nat}, ¬ bytesCmp a b = .gt → ¬ bytesCmp b c = .gt →
      ¬ bytesCmp a c = .gt := by
  intro a
  induction a with
  | nil =>
      intro b c _ _
      cases c <;> simp [bytesCmp]
  | cons x xs ih =>
      intro b c h1 h2
      cases b with
      | nil => exact absurd (by simp [bytesCmp]) h1
      | cons y ys =>
          cases c with
          | nil => exact absurd (by simp [bytesCmp]) h2
          | cons z zs =>
              simp only [bytesCmp] at h1 h2 ⊢
              cases hxy : natCmp x y with
              | gt => rw [hxy] at h1; exact absurd rfl h1
              | lt =>
                  have hx : x < y := natCmp_eq_lt.mp hxy
                  cases hyz : natCmp y z with
                  | gt => rw [hyz] at h2; exact absurd rfl h2
                  | lt =>
                      have hy : y < z := natCmp_eq_lt.mp hyz
                      rw [natCmp_eq_lt.mpr (by omega : x < z)]
                      simp
                  | eq =>
                      have hy : y = z := natCmp_eq_eq.mp hyz
                      rw [natCmp_eq_lt.mpr (by omega : x < z)]
                      simp
              | eq =>
                  have hx : x = y := natCmp_eq_eq.mp hxy
                  rw [hxy] at h1
                  cases hyz : natCmp y z with
                  | gt => rw [hyz] at h2; exact absurd rfl h2
                  | lt =>
                      have hy : y < z := natCmp_eq_lt.mp hyz
                      rw [natCmp_eq_lt.mpr (by omega : x < z)]
                      simp
                  | eq =>
                      have hy : y = z := natCmp_eq_eq.mp hyz
                      rw [hyz] at h2
                      rw [natCmp_eq_eq.mpr (by omega : x = z)]
                      exact ih h1 h2

theorem valueCmp_swap (a b : Value) : valueCmp b a = (valueCmp a b).swap := by
  cases a <;> cases b <;>
    first
      | rfl
      | exact intCmp_swap _ _
      | exact bytesCmp_swap _ _

theorem valueLe_total (a b : Value) : valueLe a b = true ∨ valueLe b a = true := by
  unfold valueLe
  rw [valueCmp_swap a b]
  cases valueCmp a b <;> simp [Ordering.swap]

theorem valueLe_trans {a b c : Value} (h1 : valueLe a b = true) (h2 : valueLe b c = true) :
    valueLe a c = true := by
  unfold valueLe at h1 h2 ⊢
  simp only [ne_eq, decide_eq_true_eq] at h1 h2 ⊢
  cases a <;> cases b <;> cases c <;> simp only [valueCmp] at h1 h2 ⊢ <;>
    first
      | exact absurd rfl h1
      | exact absurd rfl h2
      | exact absurd trivial h1
      | exact absurd trivial h2
      | (intro h; cases h)
      | exact bytesCmp_le_trans h1 h2
      | (rw [intCmp_ne_gt] at h1 h2 ⊢; omega)

theorem valueLe_of_cmp_gt {a b : Value} (h : valueCmp a b = .gt) : valueLe b a = true := by
  unfold valueLe
  rw [valueCmp_swap a b, h]
  decide

theorem valueLe_of_cmp_ne_gt {a b : Value} (h : ¬ valueCmp a b = .gt) : valueLe a b = true := by
  unfold valueLe
  simpa using h

theorem valueLe_int {a b : Int} : valueLe (.int32 a) (.int32 b) = true ↔ a ≤ b := by
  simp [valueLe, valueCmp, intCmp_ne_gt]

theorem valueLe_float {a b : Nat} :
    valueLe (.float32 a) (.float32 b) = true ↔ f32Key a ≤ f32Key b := by
  simp [valueLe, valueCmp, intCmp_ne_gt]

theorem valueLe_string {a b : List Nat} :
    valueLe (.string a) (.string b) = true ↔ ¬ bytesCmp a b = .gt := by
  simp [valueLe, valueCmp]

theorem valueLt_int {a b : Int} : valueLt (.int32 a) (.int32 b) = true ↔ a < b := by
  simp [valueLt, valueCmp, intCmp_eq_lt]

theorem valueLt_float {a b : Nat} :
    valueLt (.float32 a) (.float32 b) = true ↔ f32Key a < f32Key b := by
  simp [valueLt, valueCmp, intCmp_eq_lt]

theorem valueLt_string {a b : List Nat} :
    valueLt (.string a) (.string b) = true ↔ bytesCmp a b = .lt := by
  simp [valueLt, valueCmp]

theorem bytesCmp_gt_iff_lt {a b : List Nat} : bytesCmp a b = .gt ↔ bytesCmp b a = .lt := by
  rw [bytesCmp_swap a b]
  cases bytesCmp a b <;> simp [Ordering.swap]

theorem orderingBeq_iff {a b : Ordering} : (a == b) = true ↔ a = b := by
  cases a <;> cases b <;> decide

theorem orderingBeq_false_iff {a b : Ordering} : (a == b) = false ↔ ¬ a = b := by
  cases a <;> cases b <;> decide

/-! ## Claim theorem: block-level evaluator (C3) -/

/-- **C3**: `evaluate_condition_block` returns: for `Equal(col, v)` on
the evaluated column, true iff `block.min ≤ v ≤ block.max` (Value total
order); for `GreaterThan`, true iff `v < block.max`; for `LessThan`,
true iff `block.min < v`; `And`/`Or` as the boolean composition of their
children; `true` for any leaf naming a different column; and `false`
when the leaf value's type differs from the inspected `min`/`max`
type(s). -/
theorem C3_evaluate_condition_block_semantics (colName : String) (block : BlockInfo) :
    (∀ (col : String) (v : Value), col ≠ colName →
      evaluate_condition_block (.equal col v) colName block = true ∧
      evaluate_condition_block (.greaterThan col v) colName block = true ∧
      evaluate_condition_block (.lessThan col v) colName block = true) ∧
    (∀ l r : Condition, evaluate_condition_block (.and l r) colName block =
      (evaluate_condition_block l colName block && evaluate_condition_block r colName block)) ∧
    (∀ l r : Condition, evaluate_condition_block (.or l r) colName block =
      (evaluate_condition_block l colName block || evaluate_condition_block r colName block)) ∧
    (∀ v : Value, v.dataType = block.min.dataType → v.dataType = block.max.dataType →
      (evaluate_condition_block (.equal colName v) colName block = true ↔
        (valueLe block.min v = true ∧ valueLe v block.max = true))) ∧
    (∀ v : Value, v.dataType = block.max.dataType →
      (evaluate_condition_block (.greaterThan colName v) colName block = true ↔
        valueLt v block.max = true)) ∧
    (∀ v : Value, v.dataType = block.min.dataType →
      (evaluate_condition_block (.lessThan colName v) colName block = true ↔
        valueLt block.min v = true)) ∧
    (∀ v : Value, ¬ (v.dataType = block.min.dataType ∧ v.dataType = block.max.dataType) →
      evaluate_condition_block (.equal colName v) colName block = false) ∧
    (∀ v : Value, v.dataType ≠ block.max.dataType →
      evaluate_condition_block (.greaterThan colName v) colName block = false) ∧
    (∀ v : Value, v.dataType ≠ block.min.dataType →
      evaluate_condition_block (.lessThan colName v) colName block = false) := by
  refine ⟨?_, fun l r => rfl, fun l r => rfl, ?_, ?_, ?_, ?_, ?_, ?_⟩
  · intro col v hne
    refine ⟨?_, ?_, ?_⟩ <;> simp [evaluate_condition_block, hne]
  · intro v h1 h2
    simp only [evaluate_condition_block, if_pos rfl]
    cases v <;> cases hmin : block.min <;> cases hmax : block.max <;>
      simp_all [Value.dataType, valueLe_int, valueLe_float, valueLe_string,
        orderingBeq_iff, orderingBeq_false_iff]
  · intro v h2
    simp only [evaluate_condition_block, if_pos rfl]
    cases v <;> cases hmax : block.max <;>
      simp_all [Value.dataType, valueLt_int, valueLt_float, valueLt_string,
        orderingBeq_iff, orderingBeq_false_iff, bytesCmp_gt_iff_lt]
  · intro v h1
    simp only [evaluate_condition_block, if_pos rfl]
    cases v <;> cases hmin : block.min <;>
      simp_all [Value.dataType, valueLt_int, valueLt_float, valueLt_string, orderingBeq_iff]
  · intro v h
    simp only [evaluate_condition_block, if_pos rfl]
    cases v <;> cases hmin : block.min <;> cases hmax : block.max <;>
      simp_all [Value.dataType]
  · intro v h
    simp only [evaluate_condition_block, if_pos rfl]
    cases v <;> cases hmax : block.max <;> simp_all [Value.dataType]
  · intro v h
    simp only [evaluate_condition_block, if_pos rfl]
    cases v <;> cases hmin : block.min <;> simp_all [Value.dataType]

/-- Witness for C3 at the concrete block `[min 0, max 2] : Int32`,
column `"a"`, probe `Equal("a", 1)`. -/
theorem C3_evaluate_condition_block_semantics_witness :
    evaluate_condition_block (Condition.equal "a" (Value.int32 1)) "a"
      ⟨0, 1, Value.int32 0, Value.int32 2, CompressionType.rle, some 5⟩ = true ↔
    (valueLe (Value.int32 0) (Value.int32 1) = true ∧
      valueLe (Value.int32 1) (Value.int32 2) = true) :=
  (C3_evaluate_condition_block_semantics "a"
    ⟨0, 1, Value.int32 0, Value.int32 2, CompressionType.rle, some 5⟩).2.2.2.1
    (Value.int32 1) rfl rfl

/-! ## Claim theorem: aggregation (C6) -/

theorem valueCmp_refl (v : Value) : valueCmp v v = .eq := by
  cases v with
  | int32 i => exact intCmp_eq_eq.mpr rfl
  | float32 b => exact intCmp_eq_eq.mpr rfl
  | string s => exact bytesCmp_eq_eq.mpr rfl

theorem valueLe_refl (v : Value) : valueLe v v = true := by
  unfold valueLe
  rw [valueCmp_refl]
  decide

theorem foldlMin_spec :
    ∀ (vs : List Value) (a : Value),
      let r := vs.foldl (fun x y => if valueCmp x y = Ordering.gt then y else x) a
      (r = a ∨ r ∈ vs) ∧ valueLe r a = true ∧ ∀ y ∈ vs, valueLe r y = true := by
  intro vs
  induction vs with
  | nil => exact fun a => ⟨Or.inl rfl, valueLe_refl a, fun y hy => absurd hy (by simp)⟩
  | cons y ys ih =>
      intro a
      simp only [List.foldl_cons]
      obtain ⟨hmem, hle, hall⟩ := ih (if valueCmp a y = Ordering.gt then y else a)
      have hle_a : valueLe (if valueCmp a y = Ordering.gt then y else a) a = true := by
        split
        · exact valueLe_of_cmp_gt (by assumption)
        · exact valueLe_refl a
      have hle_y : valueLe (if valueCmp a y = Ordering.gt then y else a) y = true := by
        split
        · exact valueLe_refl y
        · exact valueLe_of_cmp_ne_gt (by assumption)
      refine ⟨?_, valueLe_trans hle hle_a, ?_⟩
      · rcases hmem with h | h
        · rw [h]
          split
          · exact Or.inr (List.mem_cons_self ..)
          · exact Or.inl rfl
        · exact Or.inr (List.mem_cons_of_mem _ h)
      · intro z hz
        rcases List.mem_cons.mp hz with rfl | hz'
        · exact valueLe_trans hle hle_y
        · exact hall z hz'

theorem foldlMax_spec :
    ∀ (vs : List Value) (a : Value),
      let r := vs.foldl (fun x y => if valueCmp x y = Ordering.gt then x else y) a
      (r = a ∨ r ∈ vs) ∧ valueLe a r = true ∧ ∀ y ∈ vs, valueLe y r = true := by
  intro vs
  induction vs with
  | nil => exact fun a => ⟨Or.inl rfl, valueLe_refl a, fun y hy => absurd hy (by simp)⟩
  | cons y ys ih =>
      intro a
      simp only [List.foldl_cons]
      obtain ⟨hmem, hle, hall⟩ := ih (if valueCmp a y = Ordering.gt then a else y)
      have ha_le : valueLe a (if valueCmp a y = Ordering.gt then a else y) = true := by
        split
        · exact valueLe_refl a
        · exact valueLe_of_cmp_ne_gt (by assumption)
      have hy_le : valueLe y (if valueCmp a y = Ordering.gt then a else y) = true := by
        split
        · exact valueLe_of_cmp_gt (by assumption)
        · exact valueLe_refl y
      refine ⟨?_, valueLe_trans ha_le hle, ?_⟩
      · rcases hmem with h | h
        · rw [h]
          split
          · exact Or.inl rfl
          · exact Or.inr (List.mem_cons_self ..)
        · exact Or.inr (List.mem_cons_of_mem _ h)
      · intro z hz
        rcases List.mem_cons.mp hz with rfl | hz'
        · exact valueLe_trans hy_le hle
        · exact hall z hz'

/-- **C6**: for an empty materialized value list, `Count` is `Int32(0)`,
`Sum` and `Avg` are `Float32(0)` (for numeric columns, their only legal
types), and `Min`/`Max` are `Float32(0)`; for every non-empty numeric
input, `Avg` is the `Sum` result divided (f32) by the number of values,
and `Min`/`Max` return an element of the input that is least/greatest
under the `Value` total order.  Parametric in the IEEE `f32` arithmetic
`ops`. -/
theorem C6_aggregate_semantics (ops : F32Ops) :
    (∀ colType : DataType,
      executeAggregateOne ops colType [] .count = .ok (.int32 0) ∧
      (∀ c : String, (colType = .int32 ∨ colType = .float32) →
        executeAggregateOne ops colType [] (.sum c) = .ok (.float32 f32ZeroBits) ∧
        executeAggregateOne ops colType [] (.avg c) = .ok (.float32 f32ZeroBits)) ∧
      (∀ c : String,
        executeAggregateOne ops colType [] (.min c) = .ok (.float32 f32ZeroBits) ∧
        executeAggregateOne ops colType [] (.max c) = .ok (.float32 f32ZeroBits))) ∧
    (∀ (colType : DataType) (values : List Value) (c1 c2 : String) (sumBits : Nat),
      values ≠ [] →
      executeAggregateOne ops colType values (.sum c1) = .ok (.float32 sumBits) →
      executeAggregateOne ops colType values (.avg c2) =
        .ok (.float32 (ops.div sumBits (ops.ofNat values.length)))) ∧
    (∀ (colType : DataType) (values : List Value) (c : String), values ≠ [] →
      (∃ m, executeAggregateOne ops colType values (.min c) = .ok m ∧ m ∈ values ∧
        ∀ y ∈ values, valueLe m y = true) ∧
      (∃ m, executeAggregateOne ops colType values (.max c) = .ok m ∧ m ∈ values ∧
        ∀ y ∈ values, valueLe y m = true)) := by
  refine ⟨?_, ?_, ?_⟩
  · intro colType
    refine ⟨rfl, ?_, fun c => ⟨rfl, rfl⟩⟩
    intro c hnum
    have hcond : ¬ (colType ≠ DataType.float32 ∧ colType ≠ DataType.int32) := by
      rcases hnum with h | h <;> subst h <;> simp
    constructor
    · simp only [executeAggregateOne, if_neg hcond]
      rfl
    · simp only [executeAggregateOne, if_neg hcond]
      rfl
  · intro colType values c1 c2 sumBits hne hsum
    simp only [executeAggregateOne] at hsum
    by_cases hcond : colType ≠ DataType.float32 ∧ colType ≠ DataType.int32
    · rw [if_pos hcond] at hsum
      cases hsum
    · rw [if_neg hcond] at hsum
      have hfold : sumFold ops values = .float32 sumBits := Except.ok.inj hsum
      simp only [executeAggregateOne, if_neg hcond, hfold]
      rw [if_pos (List.length_pos.mpr hne)]
  · intro colType values c hne
    cases values with
    | nil => exact absurd rfl hne
    | cons v vs =>
        obtain ⟨hmem1, hra1, hall1⟩ := foldlMin_spec vs v
        obtain ⟨hmem2, hra2, hall2⟩ := foldlMax_spec vs v
        constructor
        · refine ⟨iterMinBy (v :: vs) (.float32 f32ZeroBits), rfl, ?_, ?_⟩
          · show (vs.foldl (fun x y => if valueCmp x y = Ordering.gt then y else x) v) ∈ v :: vs
            rcases hmem1 with h | h
            · rw [h]; exact List.mem_cons_self ..
            · exact List.mem_cons_of_mem _ h
          · intro y hy
            rcases List.mem_cons.mp hy with rfl | hy'
            · exact hra1
            · exact hall1 y hy'
        · refine ⟨iterMaxBy (v :: vs) (.float32 f32ZeroBits), rfl, ?_, ?_⟩
          · show (vs.foldl (fun x y => if valueCmp x y = Ordering.gt then x else y) v) ∈ v :: vs
            rcases hmem2 with h | h
            · rw [h]; exact List.mem_cons_self ..
            · exact List.mem_cons_of_mem _ h
          · intro y hy
            rcases List.mem_cons.mp hy with rfl | hy'
            · exact hra2
            · exact hall2 y hy'

/-- Witness for C6 at the concrete input `[3, 1] : Int32` with a dummy
`f32` arithmetic instance. -/
theorem C6_aggregate_semantics_witness :
    (∃ m, executeAggregateOne (⟨Nat.add, fun a _ => a, fun _ => 0, fun _ => 0⟩ : F32Ops)
        .int32 [Value.int32 3, Value.int32 1] (.min "x") = .ok m ∧
      m ∈ [Value.int32 3, Value.int32 1] ∧
      ∀ y ∈ [Value.int32 3, Value.int32 1], valueLe m y = true) ∧
    (∃ m, executeAggregateOne (⟨Nat.add, fun a _ => a, fun _ => 0, fun _ => 0⟩ : F32Ops)
        .int32 [Value.int32 3, Value.int32 1] (.max "x") = .ok m ∧
      m ∈ [Value.int32 3, Value.int32 1] ∧
      ∀ y ∈ [Value.int32 3, Value.int32 1], valueLe y m = true) :=
  (C6_aggregate_semantics ⟨Nat.add, fun a _ => a, fun _ => 0, fun _ => 0⟩).2.2
    .int32 [Value.int32 3, Value.int32 1] "x" (by simp)

/-! ## Association-list lemmas -/

theorem alistGet_put_self {α : Type} (m : List (String × α)) (k : String) (v : α) :
    alistGet (alistPut m k v) k = some v := by
  induction m with
  | nil => simp [alistPut, alistGet]
  | cons p rest ih =>
      obtain ⟨k', v'⟩ := p
      by_cases h : k' = k
      · subst h
        simp [alistPut, alistGet]
      · simp [alistPut, alistGet, h, ih]

theorem alistGet_put_ne {α : Type} (m : List (String × α)) (k k2 : String) (v : α)
    (h : k ≠ k2) : alistGet (alistPut m k v) k2 = alistGet m k2 := by
  induction m with
  | nil => simp [alistPut, alistGet, h]
  | cons p rest ih =>
      obtain ⟨k', v'⟩ := p
      by_cases h' : k' = k
      · subst h'
        simp [alistPut, alistGet, h]
      · simp only [alistPut, if_neg h']
        by_cases h2 : k' = k2
        · subst h2
          simp [alistGet]
        · simp [alistGet, h2, ih]

theorem alistGet_remove_self {α : Type} (m : List (String × α)) (k : String) :
    alistGet (alistRemove m k) k = Option.none := by
  induction m with
  | nil => rfl
  | cons p rest ih =>
      obtain ⟨k', v'⟩ := p
      by_cases h : k' = k
      · subst h
        simpa [alistRemove, List.filter] using ih
      · simpa [alistRemove, List.filter, alistGet, h] using ih

/-! ## Column-store read characterization and claims C10, C7 -/

theorem foldl_skip_eq_flatMap {α : Type} (f : α → Except DbError Block) :
    ∀ (l : List α) (init : List Value),
      l.foldl
        (fun values bi =>
          match f bi with
          | .ok b => values ++ b.values
          | .error _ => values)
        init =
      init ++ l.flatMap (fun bi =>
        match f bi with
        | .ok b => b.values
        | .error _ => []) := by
  intro l
  induction l with
  | nil => intro init; simp
  | cons bi rest ih =>
      intro init
      simp only [List.foldl_cons, List.flatMap_cons]
      cases f bi with
      | ok b => rw [ih]; simp
      | error e => rw [ih]; simp

/-- The read loop, characterized: the surviving blocks' values in block
order, failed parses skipped. -/
theorem ColumnStore.read_eq (cs : ColumnStore) (condition : Option Condition) (fs : FS) :
    cs.read condition fs =
      .ok ((cs.metadata.get_blocks condition).flatMap (fun bi =>
        match cs.read_block bi fs with
        | .ok block => block.values
        | .error _ => [])) := by
  unfold ColumnStore.read
  rw [foldl_skip_eq_flatMap (fun bi => cs.read_block bi fs)]
  simp

/-- **C10**: `ColumnStore::read` never fails on an unreadable or
malformed block: for every filesystem state and metadata, it returns
`Ok` of the concatenation of the successfully deserialized blocks'
values, silently omitting every block whose `read_block` fails. -/
theorem C10_read_never_fails (cs : ColumnStore) (condition : Option Condition) (fs : FS) :
    ∃ vs, cs.read condition fs = .ok vs ∧
      vs = (cs.metadata.get_blocks condition).flatMap (fun bi =>
        match cs.read_block bi fs with
        | .ok block => block.values
        | .error _ => []) :=
  ⟨_, ColumnStore.read_eq cs condition fs, rfl⟩

/-- A column file holding one serialized `None` block of `Int32 7`:
tag byte 0, u32 count 1, then the value's 4 bytes. -/
def c7fs : FS := ⟨[("d/columns/c.dat", [0, 1, 0, 0, 0, 7, 0, 0, 0])], []⟩

/-- A block descriptor for that file, offset 0, 9 bytes. -/
def c7bi : BlockInfo := ⟨0, 1, Value.int32 7, Value.int32 7, CompressionType.none, some 9⟩

/-- A column store whose metadata lists the same offset twice. -/
def c7store : ColumnStore :=
  ⟨⟨"c", DataType.int32⟩,
   ⟨"c", DataType.int32, [c7bi, c7bi], "d/metadata/c.json", false⟩,
   "d", "d/columns/c.dat"⟩

/-- **C7 counterexample**: with two `BlockInfo` entries referencing the
same offset, `read` returns the block's values twice — there is no
deduplication by offset. -/
theorem C7_counterexample :
    c7store.read Option.none c7fs = .ok [Value.int32 7, Value.int32 7] ∧
    ([Value.int32 7, Value.int32 7] : List Value) ≠ [Value.int32 7] := by
  constructor
  · rfl
  · simp

/-- **C7 (amended)**: `ColumnStore::read` does not deduplicate blocks by
offset: every metadata entry contributes its block's values
independently, so when the same `BlockInfo` appears twice the block's
values appear twice in the returned concatenation. -/
theorem C7_read_duplicates_not_deduplicated (cs : ColumnStore) (fs : FS) (bi : BlockInfo)
    (block : Block) (hmd : cs.metadata.blocks = [bi, bi])
    (hb : cs.read_block bi fs = .ok block) :
    cs.read Option.none fs = .ok (block.values ++ block.values) := by
  rw [ColumnStore.read_eq]
  unfold BlockMetadata.get_blocks
  rw [hmd]
  simp [hb]

/-- Witness for the amended C7 at the concrete duplicated-offset store. -/
theorem C7_read_duplicates_not_deduplicated_witness :
    c7store.read Option.none c7fs = .ok ([Value.int32 7] ++ [Value.int32 7]) :=
  C7_read_duplicates_not_deduplicated c7store c7fs c7bi
    ⟨[Value.int32 7], CompressionType.none⟩ rfl rfl

/-! ## Claim theorem: column files keyed by column name (C9) -/

theorem load_metadataPath (name : String) (dt : DataType) (dataDir : String) (fs : FS) :
    (BlockMetadata.load name dt dataDir fs).metadataPath = metadataPathOf dataDir name := by
  unfold BlockMetadata.load
  cases alistGet fs.metaFiles (metadataPathOf dataDir name) <;> rfl

theorem iterMinBy_mem (v : Value) (vs : List Value) (d : Value) :
    iterMinBy (v :: vs) d ∈ v :: vs := by
  obtain ⟨hm, _, _⟩ := foldlMin_spec vs v
  show (vs.foldl (fun x y => if valueCmp x y = Ordering.gt then y else x) v) ∈ v :: vs
  rcases hm with h | h
  · rw [h]; exact List.mem_cons_self ..
  · exact List.mem_cons_of_mem _ h

theorem iterMaxBy_mem (v : Value) (vs : List Value) (d : Value) :
    iterMaxBy (v :: vs) d ∈ v :: vs := by
  obtain ⟨hm, _, _⟩ := foldlMax_spec vs v
  show (vs.foldl (fun x y => if valueCmp x y = Ordering.gt then x else y) v) ∈ v :: vs
  rcases hm with h | h
  · rw [h]; exact List.mem_cons_self ..
  · exact List.mem_cons_of_mem _ h

/-- The first table's store for column `"c"` in a fresh data directory. -/
def c9cs : ColumnStore := (ColumnStore.new ⟨"c", DataType.int32⟩ "d" FS.empty).1

/-- The filesystem after creating that store. -/
def c9fs0 : FS := (ColumnStore.new ⟨"c", DataType.int32⟩ "d" FS.empty).2

/-- The filesystem after appending `Int32 5` under the `None` scheme
through the first table's store. -/
def c9fs2 : FS :=
  ((c9cs.append [Value.int32 5] CompressionType.none c9fs0).toOption.map
    (fun p => p.2.2)).getD c9fs0

/-- The second table's store for its same-named column, built over the
resulting directory. -/
def c9cs2 : ColumnStore := (ColumnStore.new ⟨"c", DataType.int32⟩ "d" c9fs2).1

/-- The filesystem after creating the second store. -/
def c9fs3 : FS := (ColumnStore.new ⟨"c", DataType.int32⟩ "d" c9fs2).2

/-- **C9 counterexample**: the second table's same-named store does load
the block metadata appended through the first table's store (the files
are shared), but its read returns no values — `ColumnStore::append`
writes `compress` output (here `[5, 0, 0, 0]`) while
`Block::deserialize` expects a leading compression-tag byte, so the
block fails the tag check (5 ≠ 0), is skipped by `read`, and the
appended `Int32 5` is not returned. -/
theorem C9_counterexample :
    (∃ cs1', c9cs.append [Value.int32 5] CompressionType.none c9fs0 = .ok (0, cs1', c9fs2)) ∧
    c9cs2.metadata.blocks.length = 1 ∧
    c9cs2.read Option.none c9fs3 = .ok [] ∧
    ¬ ∃ out, c9cs2.read Option.none c9fs3 = .ok out ∧
      listValueEq out [Value.int32 5] = true := by
  refine ⟨⟨_, rfl⟩, rfl, rfl, ?_⟩
  rintro ⟨out, hout, heq⟩
  rw [show c9cs2.read Option.none c9fs3 = .ok [] from rfl] at hout
  cases hout
  exact absurd heq (by decide)

/-- **C9 (amended)**: column data and metadata files are keyed by the
column name alone — the stores any two tables build for an equally-named
column resolve to the same `<data_dir>/columns/<name>.dat` and
`<data_dir>/metadata/<name>.json`, and a second table's store loads the
block metadata recorded through the first table's; the appended values
are nevertheless *not* returned by the second store's reads (nor by any
read): `ColumnStore::append` writes `compress` output while
`Block::deserialize` expects a compression-tag byte and a u32 count
first, so the appended block fails the tag check and `read` skips it,
returning the empty list. -/
theorem C9_column_files_keyed_by_name :
    (∀ (dataDir name : String) (dt1 dt2 : DataType) (fs fs' : FS),
      (ColumnStore.new ⟨name, dt1⟩ dataDir fs).1.filePath =
        (ColumnStore.new ⟨name, dt2⟩ dataDir fs').1.filePath ∧
      (ColumnStore.new ⟨name, dt1⟩ dataDir fs).1.metadata.metadataPath =
        (ColumnStore.new ⟨name, dt2⟩ dataDir fs').1.metadata.metadataPath) ∧
    ((∃ cs1', c9cs.append [Value.int32 5] CompressionType.none c9fs0 =
        .ok (0, cs1', c9fs2)) ∧
      c9cs2.metadata.blocks.length = 1 ∧
      c9cs2.read Option.none c9fs3 = .ok []) := by
  constructor
  · intro dataDir name dt1 dt2 fs fs'
    exact ⟨rfl, by simp [ColumnStore.new, load_metadataPath]⟩
  · exact ⟨⟨_, rfl⟩, rfl, rfl⟩

/-! ## Claim theorem: DELETE without condition (C5) -/

/-- A column in cleared state: its store is registered with an empty
block list and a truncated data file, and its index (when present) has
an empty map. -/
def ColCleared (tc : List (String × ColumnStore)) (ti : List (String × Index)) (fs : FS)
    (col : Column) : Prop :=
  (∃ cs, alistGet tc col.name = some cs ∧ cs.metadata.blocks = [] ∧
    alistGet fs.dataFiles cs.filePath = some []) ∧
  (∀ idx, alistGet ti col.name = some idx → idx.cache = [])

theorem alistGet_put_same_val {α : Type} (m : List (String × α)) (k k2 : String) (v : α)
    (h : alistGet m k2 = some v) : alistGet (alistPut m k v) k2 = some v := by
  by_cases hk : k = k2
  · subst hk
    exact alistGet_put_self ..
  · rw [alistGet_put_ne _ _ _ _ hk]
    exact h

theorem clearColumnStep_spec
    (acc : List (String × ColumnStore) × List (String × Index) × FS) (col : Column)
    (out : List (String × ColumnStore) × List (String × Index) × FS)
    (h : clearColumnStep acc col = .ok out) :
    ColCleared out.1 out.2.1 out.2.2 col ∧
    (∀ c : Column, ColCleared acc.1 acc.2.1 acc.2.2 c →
      ColCleared out.1 out.2.1 out.2.2 c) := by
  unfold clearColumnStep at h
  cases hcs : alistGet acc.1 col.name with
  | none =>
      rw [hcs] at h
      simp [except_throw] at h
  | some cs =>
      rw [hcs] at h
      simp only [ColumnStore.clear, BlockMetadata.save, except_pure] at h
      cases hidx : alistGet acc.2.1 col.name with
      | none =>
          rw [hidx] at h
          cases h
          constructor
          · refine ⟨⟨{ cs with metadata := { cs.metadata with blocks := [] } },
              alistGet_put_self .., rfl, alistGet_put_self ..⟩, ?_⟩
            intro idx hidx2
            rw [hidx] at hidx2
            cases hidx2
          · intro c hc
            obtain ⟨⟨cs0, hcs0, hblocks0, hfile0⟩, hidx0⟩ := hc
            by_cases hname : col.name = c.name
            · refine ⟨⟨{ cs with metadata := { cs.metadata with blocks := [] } },
                ?_, rfl, alistGet_put_self ..⟩, ?_⟩
              · rw [← hname]
                exact alistGet_put_self ..
              · intro idx hidx2
                rw [← hname, hidx] at hidx2
                cases hidx2
            · refine ⟨⟨cs0, ?_, hblocks0, alistGet_put_same_val _ _ _ _ hfile0⟩, hidx0⟩
              rw [alistGet_put_ne _ _ _ _ hname]
              exact hcs0
      | some idx =>
          rw [hidx] at h
          cases h
          constructor
          · refine ⟨⟨{ cs with metadata := { cs.metadata with blocks := [] } },
              alistGet_put_self .., rfl, alistGet_put_self ..⟩, ?_⟩
            intro idx2 hidx2
            rw [alistGet_put_self] at hidx2
            cases hidx2
            rfl
          · intro c hc
            obtain ⟨⟨cs0, hcs0, hblocks0, hfile0⟩, hidx0⟩ := hc
            by_cases hname : col.name = c.name
            · refine ⟨⟨{ cs with metadata := { cs.metadata with blocks := [] } },
                ?_, rfl, alistGet_put_self ..⟩, ?_⟩
              · rw [← hname]
                exact alistGet_put_self ..
              · intro idx2 hidx2
                rw [← hname, alistGet_put_self] at hidx2
                cases hidx2
                rfl
            · refine ⟨⟨cs0, ?_, hblocks0, alistGet_put_same_val _ _ _ _ hfile0⟩, ?_⟩
              · rw [alistGet_put_ne _ _ _ _ hname]
                exact hcs0
              · intro idx2 hidx2
                rw [alistGet_put_ne _ _ _ _ hname] at hidx2
                exact hidx0 idx2 hidx2

theorem clearLoop_spec :
    ∀ (cols : List Column)
      (acc out : List (String × ColumnStore) × List (String × Index) × FS),
      List.foldlM clearColumnStep acc cols = .ok out →
      (∀ col ∈ cols, ColCleared out.1 out.2.1 out.2.2 col) ∧
      (∀ c : Column, ColCleared acc.1 acc.2.1 acc.2.2 c →
        ColCleared out.1 out.2.1 out.2.2 c) := by
  intro cols
  induction cols with
  | nil =>
      intro acc out h
      simp only [List.foldlM_nil, except_pure] at h
      cases h
      exact ⟨fun col hcol => absurd hcol (by simp), fun c hc => hc⟩
  | cons col rest ih =>
      intro acc out h
      rw [List.foldlM_cons] at h
      cases hstep : clearColumnStep acc col with
      | error e =>
          rw [hstep] at h
          simp [except_bind_error] at h
      | ok st1 =>
          rw [hstep] at h
          rw [except_bind_ok] at h
          obtain ⟨hcol1, hpres1⟩ := clearColumnStep_spec acc col st1 hstep
          obtain ⟨hrest, hpres2⟩ := ih st1 out h
          refine ⟨?_, fun c hc => hpres2 c (hpres1 c hc)⟩
          intro c hc
          rcases List.mem_cons.mp hc with rfl | hc'
          · exact hpres2 c hcol1
          · exact hrest c hc'

/-- **C5**: after `delete_rows` with no condition succeeds on an
existing table, the table's row count is 0, every schema column's store
has an empty block list and a truncated (empty) data file, every index
kept for a schema column is cleared, and the table's pending-row buffer
is gone. -/
theorem C5_delete_all_clears (sm : StorageManager) (tableName : String)
    (sm' : StorageManager) (tdef : Table)
    (htd : sm.schema.get_table tableName = some tdef)
    (h : sm.delete_rows tableName Option.none = .ok sm') :
    (∃ t', sm'.schema.get_table tableName = some t' ∧ t'.rowCount = 0) ∧
    (∀ col ∈ tdef.columns,
      (∃ cs, (alistGet sm'.columns tableName).bind (fun m => alistGet m col.name) = some cs ∧
        cs.metadata.blocks = [] ∧
        alistGet sm'.fs.dataFiles cs.filePath = some []) ∧
      (∀ idx, (alistGet sm'.indexes tableName).bind (fun m => alistGet m col.name) = some idx →
        idx.cache = [])) ∧
    alistGet sm'.pendingRows tableName = Option.none := by
  unfold StorageManager.delete_rows at h
  rw [htd] at h
  simp only [except_pure, except_bind_ok] at h
  cases hmat : materializeColumns sm tableName (tdef.columns.map (fun c => c.name)) [] usizeMax with
  | error e =>
      rw [hmat] at h
      simp [except_bind_error] at h
  | ok p =>
      obtain ⟨cv, mrc⟩ := p
      rw [hmat] at h
      rw [except_bind_ok] at h
      cases hcols : alistGet sm.columns tableName with
      | none =>
          rw [hcols] at h
          simp [except_throw, except_bind_error] at h
      | some tc =>
          rw [hcols] at h
          cases hidxm : alistGet sm.indexes tableName with
          | none =>
              rw [hidxm] at h
              simp [except_throw, except_bind_ok, except_bind_error] at h
          | some ti =>
              rw [hidxm] at h
              simp only [except_pure, except_bind_ok] at h
              cases hloop : List.foldlM clearColumnStep (tc, ti, sm.fs) tdef.columns with
              | error e =>
                  rw [hloop] at h
                  simp [except_bind_error] at h
              | ok st =>
                  obtain ⟨tc', ti', fs'⟩ := st
                  rw [hloop] at h
                  rw [except_bind_ok] at h
                  cases h
                  obtain ⟨hall, _⟩ := clearLoop_spec tdef.columns (tc, ti, sm.fs)
                    (tc', ti', fs') hloop
                  refine ⟨⟨{ tdef with rowCount := 0 }, ?_, rfl⟩, ?_, ?_⟩
                  · show alistGet (alistPut sm.schema.tables tableName _) tableName = _
                    exact alistGet_put_self ..
                  · intro col hcol
                    obtain ⟨⟨cs, hcs, hblocks, hfile⟩, hidx⟩ := hall col hcol
                    constructor
                    · refine ⟨cs, ?_, hblocks, hfile⟩
                      rw [show alistGet (alistPut sm.columns tableName tc') tableName =
                        some tc' from alistGet_put_self ..]
                      exact hcs
                    · intro idx hidx2
                      rw [show alistGet (alistPut sm.indexes tableName ti') tableName =
                        some ti' from alistGet_put_self ..] at hidx2
                      exact hidx idx hidx2
                  · exact alistGet_remove_self ..

/-- A concrete storage manager holding one freshly created table `T`
with a single `Int32` column `ID`, used to exercise `delete_rows`. -/
def c5sm : StorageManager :=
  (((StorageManager.new "d").create_table ⟨"T", [⟨"ID", DataType.int32⟩], 0⟩).toOption.getD
    (StorageManager.new "d"))

/-- The state produced by deleting all rows of `T` from `c5sm`. -/
def c5sm' : StorageManager :=
  (c5sm.delete_rows "T" Option.none).toOption.getD c5sm

/-- The table definition registered for `T` in `c5sm`. -/
def c5tdef : Table := ⟨"T", [⟨"ID", DataType.int32⟩], 0⟩

/-- Witness for C5: delete everything from a freshly created one-column
table; the resulting state has row count 0, the column cleared, and no
pending buffer. -/
theorem C5_delete_all_clears_witness :
    (∃ t', c5sm'.schema.get_table "T" = some t' ∧ t'.rowCount = 0) ∧
    (∀ col ∈ c5tdef.columns,
      (∃ cs, (alistGet c5sm'.columns "T").bind (fun m => alistGet m col.name) = some cs ∧
        cs.metadata.blocks = [] ∧
        alistGet c5sm'.fs.dataFiles cs.filePath = some []) ∧
      (∀ idx, (alistGet c5sm'.indexes "T").bind (fun m => alistGet m col.name) = some idx →
        idx.cache = [])) ∧
    alistGet c5sm'.pendingRows "T" = Option.none :=
  C5_delete_all_clears c5sm "T" c5sm' c5tdef rfl rfl

/-! ## C4: rollback leaves storage untouched -/

/-- An arbitrary f32 operation dictionary for scenarios that never
aggregate. -/
def c4ops : F32Ops := ⟨Nat.add, fun a _ => a, fun _ => 0, fun _ => 0⟩

/-- The C4 scenario: create table `Test(ID Int32, Value String)`, commit
a transaction inserting `(1, "Committed")`, begin a second transaction
that inserts `(2, "RolledBack")` but roll it back, then SELECT `Value`
from `Test`.  String payloads are UTF-8 byte lists. -/
def c4Scenario : Except DbError (List (List Value)) := do
  let sm0 := StorageManager.new "d"
  let (_, sm1) ← QueryEngine.execute c4ops sm0
    (.createTable "Test" [("ID", .int32), ("Value", .string)])
  let tm0 := TransactionManager.new sm1
  let (tx1, tm1) := tm0.begin_transaction
  let tx1 := tx1.add_query (.insert "Test"
    [.int32 1, .string [67, 111, 109, 109, 105, 116, 116, 101, 100]])
  let (_, tm2) ← tm1.commit_transaction c4ops tx1
  let (tx2, tm3) := tm2.begin_transaction
  let tx2 := tx2.add_query (.insert "Test"
    [.int32 2, .string [82, 111, 108, 108, 101, 100, 66, 97, 99, 107]])
  let tm4 := tm3.rollback_transaction tx2
  let (rows, _) ← QueryEngine.execute c4ops tm4.storage (.select "Test" ["Value"] Option.none)
  pure rows

/-- **C4**: `rollback_transaction` truncates the WAL to empty and leaves
the storage manager (schema, column stores, metadata, indexes, pending
buffers, files) and the transaction-id counter unchanged, for every
manager state and transaction; and in the commit-then-rollback scenario
a subsequent SELECT returns only the committed row `"Committed"`. -/
theorem C4_rollback_frame :
    (∀ (tm : TransactionManager) (tx : Transaction),
      (tm.rollback_transaction tx).storage = tm.storage ∧
      (tm.rollback_transaction tx).nextTxId = tm.nextTxId ∧
      (tm.rollback_transaction tx).wal = []) ∧
    c4Scenario = .ok [[Value.string [67, 111, 109, 109, 105, 116, 116, 101, 100]]] :=
  ⟨fun _ _ => ⟨rfl, rfl, rfl⟩, rfl⟩

end VDDB